import Mathlib

/-!
# Verification of the Slate linear-algebra compiler (`firedrake/slate/slac/compiler.py`)

This file is a shallow embedding of the expression-to-kernel lowering pipeline of
the Slate Linear Algebra Compiler, together with proofs of the testable
properties stated in the module's specification.

The embedding follows the source module `compiler.py`:

* `SExpr` models the Slate `TensorBase` DAG variants (`slate.py` supplies the
  node classes; the variant list and the shape bookkeeping follow the spec's
  data model, since `slate.py` itself is outside the sources at hand).
* `slateToCpp` models `slate_to_cpp` (lines 942-1029).  Its output is the
  abstract syntax of the produced Eigen C++ string (`CCode`); the precedence /
  parenthesization logic of `parenthesize` only affects concrete syntax and is
  not needed for any claim.  The second component of the result is ghost
  instrumentation: the list of DAG nodes that the call structurally expanded
  (i.e. translated without going through a declared temporary).
* `auxLoop` models the loop of `auxiliary_expressions` (lines 352-394),
  `coefficientTemps` models `coefficient_temporaries` (lines 397-468),
  `terminalStmtsOf` models `terminal_temporaries` (lines 588-607) and
  `generateKernel` glues them in the order of `generate_kernel`
  (lines 190-231) and `generate_kernel_ast` (lines 234-349).
* `facetLoopOf`/`runFacetIter` model the facet section of
  `tensor_assembly_calls` (lines 484-540), `layerDispatch` the mesh-layer
  section (lines 542-583).
* `kernelArgs` models the argument assembly of `generate_kernel_ast`
  (lines 273-314) and `gemToLoopyArgs` that of `gem_to_loopy` (lines 628-710).
* `compileExpression` models `compile_expression` (lines 90-113) with its
  per-expression cache, and `slateCacheKey` models `SlateKernel._cache_key`
  (lines 74-78).
-/

/-- The Slate tensor-expression DAG (`slate.TensorBase` variants).  Terminals
(`Tensor`, `AssembledVector`) carry their per-axis lists of sub-block extents
(Python `tensor.shapes[axis]`, a tuple of extents, one per component of a
mixed space).  Sharing in the Python DAG is by object identity; in this
embedding two structurally equal nodes are identified, and the derived
reference counter is supplied as a function parameter where needed. -/
inductive SExpr where
  | tensor (id : Nat) (axes : List (List Nat))
  | assembledVector (id : Nat) (axes : List (List Nat))
  | transpose (a : SExpr)
  | inverse (a : SExpr)
  | negative (a : SExpr)
  | add (a b : SExpr)
  | mul (a b : SExpr)
  | blockOf (a : SExpr) (indices : List (List Nat))
  | solveOf (a b : SExpr)
  | factorization (a : SExpr) (decomposition : String)
deriving DecidableEq

namespace SExpr

/-- Structural depth, used to rule out a node occurring inside itself. -/
def depth : SExpr → Nat
  | .tensor _ _ => 0
  | .assembledVector _ _ => 0
  | .transpose a => a.depth + 1
  | .inverse a => a.depth + 1
  | .negative a => a.depth + 1
  | .add a b => max a.depth b.depth + 1
  | .mul a b => max a.depth b.depth + 1
  | .blockOf a _ => a.depth + 1
  | .solveOf a b => max a.depth b.depth + 1
  | .factorization a _ => a.depth + 1

/-- `occursIn n e` holds when `n` is a (not necessarily strict) subterm of `e`. -/
def occursIn (n : SExpr) : SExpr → Bool
  | .tensor i s => n = .tensor i s
  | .assembledVector i s => n = .assembledVector i s
  | .transpose a => n = .transpose a || occursIn n a
  | .inverse a => n = .inverse a || occursIn n a
  | .negative a => n = .negative a || occursIn n a
  | .add a b => n = .add a b || occursIn n a || occursIn n b
  | .mul a b => n = .mul a b || occursIn n a || occursIn n b
  | .blockOf a ix => n = .blockOf a ix || occursIn n a
  | .solveOf a b => n = .solveOf a b || occursIn n a || occursIn n b
  | .factorization a d => n = .factorization a d || occursIn n a

/-- The node kinds that `auxiliary_expressions` treats as already declared or
free to recompute: the `terminals` tuple
`(slate.Tensor, slate.AssembledVector, slate.Negative, slate.Transpose)`
(compiler.py lines 366-367). -/
def isExempt : SExpr → Bool
  | .tensor _ _ => true
  | .assembledVector _ _ => true
  | .negative _ => true
  | .transpose _ => true
  | _ => false

/-- Whether the node is a `slate.Factorization`. -/
def isFactorization : SExpr → Bool
  | .factorization _ _ => true
  | _ => false

/-- Whether the node is a terminal (`slate.Tensor` or `slate.AssembledVector`). -/
def isTerminalTensor : SExpr → Bool
  | .tensor _ _ => true
  | .assembledVector _ _ => true
  | _ => false

/-- Modelled from the spec: the per-axis block-extent bookkeeping
(`TensorBase.shapes` of `slate.py`, which is not among the sources).  A
terminal carries its extents; `Transpose` swaps the axes; `Block` restricts
each axis to the selected sub-extents; the algebraic nodes propagate the
extents dictated by shape conformability (`Add` preserves shape, `Mul` keeps
the rows of the left and the columns of the right operand, `Inverse`,
`Negative` and `Factorization` preserve shape, `Solve A B` has the shape of
`A⁻¹ · B`). -/
def shapes : SExpr → List (List Nat)
  | .tensor _ s => s
  | .assembledVector _ s => s
  | .transpose a => a.shapes.reverse
  | .inverse a => a.shapes
  | .negative a => a.shapes
  | .add a _ => a.shapes
  | .mul a b => [a.shapes.headD [], (b.shapes.drop 1).headD []]
  | .blockOf a ix =>
      (List.range ix.length).map fun axis =>
        (ix.getD axis []).map fun i => (a.shapes.getD axis []).getD i 0
  | .solveOf a b => [(a.shapes.drop 1).headD [], (b.shapes.drop 1).headD []]
  | .factorization a _ => a.shapes

/-- The extents of one axis of the operand (`tensor.shapes[axis]`). -/
def axisShapes (e : SExpr) (axis : Nat) : List Nat := e.shapes.getD axis []

end SExpr

/-- `min(ids)` for a nonempty Python tuple of indices. -/
def minD : List Nat → Nat
  | [] => 0
  | x :: xs => xs.foldl Nat.min x

/-- The contiguity test of `slate_to_cpp`'s `Block` branch
(`all(ids[i] + 1 == ids[i + 1] for i in range(len(ids) - 1))`). -/
def contiguousL : List Nat → Bool
  | [] => true
  | [_] => true
  | a :: b :: rest => (a + 1 == b) && contiguousL (b :: rest)

/-- Abstract syntax of the Eigen C++ expression string produced by
`slate_to_cpp`.  Each constructor corresponds to one branch of the Python
function; `temp` is the reference to an already declared temporary. -/
inductive CCode where
  | temp (t : String)
  | transpose (c : CCode)
  | inverse (c : CCode)
  | neg (c : CCode)
  | add (a b : CCode)
  | mul (a b : CCode)
  | blockC (c : CCode) (rshape cshape rstart cstart : Nat)
  | solveC (a b : CCode)
deriving DecidableEq

/-- The declared-temporary names referenced by a piece of emitted code. -/
def CCode.refs : CCode → List String
  | .temp t => [t]
  | .transpose c => c.refs
  | .inverse c => c.refs
  | .neg c => c.refs
  | .add a b => a.refs ++ b.refs
  | .mul a b => a.refs ++ b.refs
  | .blockC c _ _ _ _ => c.refs
  | .solveC a b => a.refs ++ b.refs

/-- Compile-time failures of the lowering (Python `NotImplementedError`s;
the spec's taxonomy files these under `UnsupportedFeature`). -/
inductive SlacError where
  | nonContiguousBlock
  | badBlockIndices
  | typeNotSupported
  | mixedNotImplemented
  | multipleDomains
deriving DecidableEq

/-- The `declared_temps` dictionary: an identity-keyed map from DAG nodes to
their temporary's symbolic name (newest binding first). -/
def Temps := List (SExpr × String)

/-- Dictionary lookup in `declared_temps` (`expr in temps` / `temps[expr]`). -/
def lookupT : List (SExpr × String) → SExpr → Option String
  | [], _ => none
  | (k, v) :: rest, e => if k = e then some v else lookupT rest e

/-- `slate_to_cpp(expr, temps)` (compiler.py lines 942-1029).  The first
component of a successful result is the abstract syntax of the produced C++
string; the second is ghost instrumentation recording every DAG node the call
expanded structurally (a node found in `temps` is rendered as its temporary's
name and contributes nothing).  A `Tensor`/`AssembledVector`/`Factorization`
that has no declared temporary falls through to the final
`NotImplementedError("Type %s not supported.")` branch. -/
def slateToCpp (temps : List (SExpr × String)) :
    SExpr → Except SlacError (CCode × List SExpr)
  | e@(.transpose a) =>
    match lookupT temps e with
    | some t => .ok (.temp t, [])
    | none =>
      match slateToCpp temps a with
      | .ok (c, l) => .ok (.transpose c, e :: l)
      | .error err => .error err
  | e@(.inverse a) =>
    match lookupT temps e with
    | some t => .ok (.temp t, [])
    | none =>
      match slateToCpp temps a with
      | .ok (c, l) => .ok (.inverse c, e :: l)
      | .error err => .error err
  | e@(.negative a) =>
    match lookupT temps e with
    | some t => .ok (.temp t, [])
    | none =>
      match slateToCpp temps a with
      | .ok (c, l) => .ok (.neg c, e :: l)
      | .error err => .error err
  | e@(.add a b) =>
    match lookupT temps e with
    | some t => .ok (.temp t, [])
    | none =>
      match slateToCpp temps a, slateToCpp temps b with
      | .ok (ca, la), .ok (cb, lb) => .ok (.add ca cb, e :: (la ++ lb))
      | .error err, _ => .error err
      | _, .error err => .error err
  | e@(.mul a b) =>
    match lookupT temps e with
    | some t => .ok (.temp t, [])
    | none =>
      match slateToCpp temps a, slateToCpp temps b with
      | .ok (ca, la), .ok (cb, lb) => .ok (.mul ca cb, e :: (la ++ lb))
      | .error err, _ => .error err
      | _, .error err => .error err
  | e@(.blockOf a indices) =>
    match lookupT temps e with
    | some t => .ok (.temp t, [])
    | none =>
      match indices with
      | [rids, cids] =>
        if contiguousL rids && contiguousL cids then
          match slateToCpp temps a with
          | .ok (ca, la) =>
            .ok (.blockC ca
                  ((rids.map fun i => (a.axisShapes 0).getD i 0).sum)
                  ((cids.map fun i => (a.axisShapes 1).getD i 0).sum)
                  (((a.axisShapes 0).take (minD rids)).sum)
                  (((a.axisShapes 1).take (minD cids)).sum),
                 e :: la)
          | .error err => .error err
        else .error .nonContiguousBlock
      | [rids] =>
        -- rank-1 block: `cidx = 0`, so `cids = (0,)` is trivially contiguous,
        -- `cshape = 1` and `cstart = 0`.
        if contiguousL rids then
          match slateToCpp temps a with
          | .ok (ca, la) =>
            .ok (.blockC ca
                  ((rids.map fun i => (a.axisShapes 0).getD i 0).sum)
                  1
                  (((a.axisShapes 0).take (minD rids)).sum)
                  0,
                 e :: la)
          | .error err => .error err
        else .error .nonContiguousBlock
      | _ => .error .badBlockIndices
  | e@(.solveOf a b) =>
    match lookupT temps e with
    | some t => .ok (.temp t, [])
    | none =>
      match slateToCpp temps a, slateToCpp temps b with
      | .ok (ca, la), .ok (cb, lb) => .ok (.solveC ca cb, e :: (la ++ lb))
      | .error err, _ => .error err
      | _, .error err => .error err
  | e@(.tensor _ _) =>
    match lookupT temps e with
    | some t => .ok (.temp t, [])
    | none => .error .typeNotSupported
  | e@(.assembledVector _ _) =>
    match lookupT temps e with
    | some t => .ok (.temp t, [])
    | none => .error .typeNotSupported
  | e@(.factorization _ _) =>
    match lookupT temps e with
    | some t => .ok (.temp t, [])
    | none => .error .typeNotSupported

/-- Occurrence count of a node in a ghost expansion log. -/
def countE (n : SExpr) : List SExpr → Nat
  | [] => 0
  | x :: xs => (if x = n then 1 else 0) + countE n xs

theorem countE_append (n : SExpr) (l₁ l₂ : List SExpr) :
    countE n (l₁ ++ l₂) = countE n l₁ + countE n l₂ := by
  induction l₁ with
  | nil => simp [countE]
  | cons x xs ih => simp [countE, ih]; omega

theorem countE_eq_zero (n : SExpr) (l : List SExpr) (h : ∀ m ∈ l, m ≠ n) :
    countE n l = 0 := by
  induction l with
  | nil => rfl
  | cons x xs ih =>
    have hx : x ≠ n := h x (by simp)
    simp [countE, hx]
    exact ih fun m hm => h m (by simp [hm])

theorem occursIn_self (e : SExpr) : SExpr.occursIn e e = true := by
  cases e <;> simp [SExpr.occursIn]

theorem occursIn_depth (n e : SExpr) (h : SExpr.occursIn n e = true) :
    n.depth ≤ e.depth := by
  induction e with
  | tensor i s => simp [SExpr.occursIn] at h; subst h; exact le_refl _
  | assembledVector i s => simp [SExpr.occursIn] at h; subst h; exact le_refl _
  | transpose a ih =>
    simp [SExpr.occursIn] at h
    rcases h with h | h
    · subst h; exact le_refl _
    · have := ih h; simp [SExpr.depth]; omega
  | inverse a ih =>
    simp [SExpr.occursIn] at h
    rcases h with h | h
    · subst h; exact le_refl _
    · have := ih h; simp [SExpr.depth]; omega
  | negative a ih =>
    simp [SExpr.occursIn] at h
    rcases h with h | h
    · subst h; exact le_refl _
    · have := ih h; simp [SExpr.depth]; omega
  | add a b iha ihb =>
    simp [SExpr.occursIn] at h
    rcases h with (h | h) | h
    · subst h; exact le_refl _
    · have := iha h; simp [SExpr.depth]; omega
    · have := ihb h; simp [SExpr.depth]; omega
  | mul a b iha ihb =>
    simp [SExpr.occursIn] at h
    rcases h with (h | h) | h
    · subst h; exact le_refl _
    · have := iha h; simp [SExpr.depth]; omega
    · have := ihb h; simp [SExpr.depth]; omega
  | blockOf a ix ih =>
    simp [SExpr.occursIn] at h
    rcases h with h | h
    · subst h; exact le_refl _
    · have := ih h; simp [SExpr.depth]; omega
  | solveOf a b iha ihb =>
    simp [SExpr.occursIn] at h
    rcases h with (h | h) | h
    · subst h; exact le_refl _
    · have := iha h; simp [SExpr.depth]; omega
    · have := ihb h; simp [SExpr.depth]; omega
  | factorization a d ih =>
    simp [SExpr.occursIn] at h
    rcases h with h | h
    · subst h; exact le_refl _
    · have := ih h; simp [SExpr.depth]; omega

theorem not_occursIn_of_depth_lt (n e : SExpr) (h : e.depth < n.depth) :
    SExpr.occursIn n e = false := by
  cases hx : SExpr.occursIn n e
  · rfl
  · exact absurd (occursIn_depth n e hx) (by omega)

theorem lookupT_mem_values (temps : List (SExpr × String)) (e : SExpr) (t : String)
    (h : lookupT temps e = some t) : t ∈ temps.map Prod.snd := by
  induction temps with
  | nil => simp [lookupT] at h
  | cons p rest ih =>
    obtain ⟨k, v⟩ := p
    by_cases hk : k = e
    · simp [lookupT, hk] at h; simp [h]
    · simp [lookupT, hk] at h; simp [ih h]

/-- Every node recorded as expanded by `slate_to_cpp` had no declared
temporary at the time and is a subterm of the translated expression. -/
theorem slateToCpp_log_mem (temps : List (SExpr × String)) (e : SExpr) :
    ∀ (c : CCode) (log : List SExpr), slateToCpp temps e = .ok (c, log) →
      ∀ n ∈ log, lookupT temps n = none ∧ SExpr.occursIn n e = true := by
  induction e with
  | tensor i s =>
    intro c log h
    simp only [slateToCpp] at h
    split at h
    · simp only [Except.ok.injEq, Prod.mk.injEq] at h
      obtain ⟨-, hlog⟩ := h
      intro n hn; rw [← hlog] at hn; simp at hn
    · simp at h
  | assembledVector i s =>
    intro c log h
    simp only [slateToCpp] at h
    split at h
    · simp only [Except.ok.injEq, Prod.mk.injEq] at h
      obtain ⟨-, hlog⟩ := h
      intro n hn; rw [← hlog] at hn; simp at hn
    · simp at h
  | factorization a d ih =>
    intro c log h
    simp only [slateToCpp] at h
    split at h
    · simp only [Except.ok.injEq, Prod.mk.injEq] at h
      obtain ⟨-, hlog⟩ := h
      intro n hn; rw [← hlog] at hn; simp at hn
    · simp at h
  | transpose a ih =>
    intro c log h
    simp only [slateToCpp] at h
    split at h
    · simp only [Except.ok.injEq, Prod.mk.injEq] at h
      obtain ⟨-, hlog⟩ := h
      intro n hn; rw [← hlog] at hn; simp at hn
    · rename_i hl
      split at h
      · rename_i ca la hr
        simp only [Except.ok.injEq, Prod.mk.injEq] at h
        obtain ⟨-, hlog⟩ := h
        intro n hn
        rw [← hlog] at hn
        rcases List.mem_cons.mp hn with hn | hn
        · subst hn; exact ⟨hl, by simp [SExpr.occursIn]⟩
        · obtain ⟨h1, h2⟩ := ih ca la hr n hn
          exact ⟨h1, by simp [SExpr.occursIn, h2]⟩
      · simp at h
  | inverse a ih =>
    intro c log h
    simp only [slateToCpp] at h
    split at h
    · simp only [Except.ok.injEq, Prod.mk.injEq] at h
      obtain ⟨-, hlog⟩ := h
      intro n hn; rw [← hlog] at hn; simp at hn
    · rename_i hl
      split at h
      · rename_i ca la hr
        simp only [Except.ok.injEq, Prod.mk.injEq] at h
        obtain ⟨-, hlog⟩ := h
        intro n hn
        rw [← hlog] at hn
        rcases List.mem_cons.mp hn with hn | hn
        · subst hn; exact ⟨hl, by simp [SExpr.occursIn]⟩
        · obtain ⟨h1, h2⟩ := ih ca la hr n hn
          exact ⟨h1, by simp [SExpr.occursIn, h2]⟩
      · simp at h
  | negative a ih =>
    intro c log h
    simp only [slateToCpp] at h
    split at h
    · simp only [Except.ok.injEq, Prod.mk.injEq] at h
      obtain ⟨-, hlog⟩ := h
      intro n hn; rw [← hlog] at hn; simp at hn
    · rename_i hl
      split at h
      · rename_i ca la hr
        simp only [Except.ok.injEq, Prod.mk.injEq] at h
        obtain ⟨-, hlog⟩ := h
        intro n hn
        rw [← hlog] at hn
        rcases List.mem_cons.mp hn with hn | hn
        · subst hn; exact ⟨hl, by simp [SExpr.occursIn]⟩
        · obtain ⟨h1, h2⟩ := ih ca la hr n hn
          exact ⟨h1, by simp [SExpr.occursIn, h2]⟩
      · simp at h
  | add a b iha ihb =>
    intro c log h
    simp only [slateToCpp] at h
    split at h
    · simp only [Except.ok.injEq, Prod.mk.injEq] at h
      obtain ⟨-, hlog⟩ := h
      intro n hn; rw [← hlog] at hn; simp at hn
    · rename_i hl
      split at h
      · rename_i ca la cb lb hra hrb
        simp only [Except.ok.injEq, Prod.mk.injEq] at h
        obtain ⟨-, hlog⟩ := h
        intro n hn
        rw [← hlog] at hn
        rcases List.mem_cons.mp hn with hn | hn
        · subst hn; exact ⟨hl, by simp [SExpr.occursIn]⟩
        · rcases List.mem_append.mp hn with hn | hn
          · obtain ⟨h1, h2⟩ := iha ca la hra n hn
            exact ⟨h1, by simp [SExpr.occursIn, h2]⟩
          · obtain ⟨h1, h2⟩ := ihb cb lb hrb n hn
            exact ⟨h1, by simp [SExpr.occursIn, h2]⟩
      · simp at h
      · simp at h
  | mul a b iha ihb =>
    intro c log h
    simp only [slateToCpp] at h
    split at h
    · simp only [Except.ok.injEq, Prod.mk.injEq] at h
      obtain ⟨-, hlog⟩ := h
      intro n hn; rw [← hlog] at hn; simp at hn
    · rename_i hl
      split at h
      · rename_i ca la cb lb hra hrb
        simp only [Except.ok.injEq, Prod.mk.injEq] at h
        obtain ⟨-, hlog⟩ := h
        intro n hn
        rw [← hlog] at hn
        rcases List.mem_cons.mp hn with hn | hn
        · subst hn; exact ⟨hl, by simp [SExpr.occursIn]⟩
        · rcases List.mem_append.mp hn with hn | hn
          · obtain ⟨h1, h2⟩ := iha ca la hra n hn
            exact ⟨h1, by simp [SExpr.occursIn, h2]⟩
          · obtain ⟨h1, h2⟩ := ihb cb lb hrb n hn
            exact ⟨h1, by simp [SExpr.occursIn, h2]⟩
      · simp at h
      · simp at h
  | solveOf a b iha ihb =>
    intro c log h
    simp only [slateToCpp] at h
    split at h
    · simp only [Except.ok.injEq, Prod.mk.injEq] at h
      obtain ⟨-, hlog⟩ := h
      intro n hn; rw [← hlog] at hn; simp at hn
    · rename_i hl
      split at h
      · rename_i ca la cb lb hra hrb
        simp only [Except.ok.injEq, Prod.mk.injEq] at h
        obtain ⟨-, hlog⟩ := h
        intro n hn
        rw [← hlog] at hn
        rcases List.mem_cons.mp hn with hn | hn
        · subst hn; exact ⟨hl, by simp [SExpr.occursIn]⟩
        · rcases List.mem_append.mp hn with hn | hn
          · obtain ⟨h1, h2⟩ := iha ca la hra n hn
            exact ⟨h1, by simp [SExpr.occursIn, h2]⟩
          · obtain ⟨h1, h2⟩ := ihb cb lb hrb n hn
            exact ⟨h1, by simp [SExpr.occursIn, h2]⟩
      · simp at h
      · simp at h
  | blockOf a ix ih =>
    intro c log h
    simp only [slateToCpp] at h
    split at h
    · simp only [Except.ok.injEq, Prod.mk.injEq] at h
      obtain ⟨-, hlog⟩ := h
      intro n hn; rw [← hlog] at hn; simp at hn
    · rename_i hl
      split at h
      · -- [rids, cids]
        rename_i rids cids
        split at h
        · split at h
          · rename_i ca la hr
            simp only [Except.ok.injEq, Prod.mk.injEq] at h
            obtain ⟨-, hlog⟩ := h
            intro n hn
            rw [← hlog] at hn
            rcases List.mem_cons.mp hn with hn | hn
            · subst hn; exact ⟨hl, by simp [SExpr.occursIn]⟩
            · obtain ⟨h1, h2⟩ := ih ca la hr n hn
              exact ⟨h1, by simp [SExpr.occursIn, h2]⟩
          · simp at h
        · simp at h
      · -- [rids]
        rename_i rids
        split at h
        · split at h
          · rename_i ca la hr
            simp only [Except.ok.injEq, Prod.mk.injEq] at h
            obtain ⟨-, hlog⟩ := h
            intro n hn
            rw [← hlog] at hn
            rcases List.mem_cons.mp hn with hn | hn
            · subst hn; exact ⟨hl, by simp [SExpr.occursIn]⟩
            · obtain ⟨h1, h2⟩ := ih ca la hr n hn
              exact ⟨h1, by simp [SExpr.occursIn, h2]⟩
          · simp at h
        · simp at h
      · simp at h

/-- A node structurally deeper than every entry source cannot appear in the
expansion log of a strictly shallower expression. -/
theorem countE_log_zero (temps : List (SExpr × String)) (a : SExpr) (ca : CCode)
    (la : List SExpr) (hr : slateToCpp temps a = .ok (ca, la)) (n : SExpr)
    (hd : SExpr.depth a < SExpr.depth n) : countE n la = 0 := by
  apply countE_eq_zero
  intro m hm heq
  obtain ⟨-, hocc⟩ := slateToCpp_log_mem temps a ca la hr m hm
  rw [heq] at hocc
  rw [not_occursIn_of_depth_lt _ _ hd] at hocc
  exact Bool.false_ne_true hocc

/-- A node that has no declared temporary is expanded exactly once when it is
itself translated by `slate_to_cpp`. -/
theorem slateToCpp_self_count (temps : List (SExpr × String)) (n : SExpr)
    (c : CCode) (log : List SExpr) (hn : lookupT temps n = none)
    (h : slateToCpp temps n = .ok (c, log)) : countE n log = 1 := by
  cases n with
  | tensor i s =>
    simp only [slateToCpp] at h
    split at h
    · rename_i t hl; rw [hn] at hl; simp at hl
    · simp at h
  | assembledVector i s =>
    simp only [slateToCpp] at h
    split at h
    · rename_i t hl; rw [hn] at hl; simp at hl
    · simp at h
  | factorization a d =>
    simp only [slateToCpp] at h
    split at h
    · rename_i t hl; rw [hn] at hl; simp at hl
    · simp at h
  | transpose a =>
    simp only [slateToCpp] at h
    split at h
    · rename_i t hl; rw [hn] at hl; simp at hl
    · split at h
      · rename_i ca la hr
        simp only [Except.ok.injEq, Prod.mk.injEq] at h
        obtain ⟨-, hlog⟩ := h
        rw [← hlog]
        have hz := countE_log_zero temps a ca la hr (.transpose a)
          (by simp [SExpr.depth])
        simp [countE, hz]
      · simp at h
  | inverse a =>
    simp only [slateToCpp] at h
    split at h
    · rename_i t hl; rw [hn] at hl; simp at hl
    · split at h
      · rename_i ca la hr
        simp only [Except.ok.injEq, Prod.mk.injEq] at h
        obtain ⟨-, hlog⟩ := h
        rw [← hlog]
        have hz := countE_log_zero temps a ca la hr (.inverse a)
          (by simp [SExpr.depth])
        simp [countE, hz]
      · simp at h
  | negative a =>
    simp only [slateToCpp] at h
    split at h
    · rename_i t hl; rw [hn] at hl; simp at hl
    · split at h
      · rename_i ca la hr
        simp only [Except.ok.injEq, Prod.mk.injEq] at h
        obtain ⟨-, hlog⟩ := h
        rw [← hlog]
        have hz := countE_log_zero temps a ca la hr (.negative a)
          (by simp [SExpr.depth])
        simp [countE, hz]
      · simp at h
  | add a b =>
    simp only [slateToCpp] at h
    split at h
    · rename_i t hl; rw [hn] at hl; simp at hl
    · split at h
      · rename_i ca la cb lb hra hrb
        simp only [Except.ok.injEq, Prod.mk.injEq] at h
        obtain ⟨-, hlog⟩ := h
        rw [← hlog]
        have hza := countE_log_zero temps a ca la hra (.add a b)
          (by simp [SExpr.depth]; omega)
        have hzb := countE_log_zero temps b cb lb hrb (.add a b)
          (by simp [SExpr.depth]; omega)
        simp [countE, countE_append, hza, hzb]
      · simp at h
      · simp at h
  | mul a b =>
    simp only [slateToCpp] at h
    split at h
    · rename_i t hl; rw [hn] at hl; simp at hl
    · split at h
      · rename_i ca la cb lb hra hrb
        simp only [Except.ok.injEq, Prod.mk.injEq] at h
        obtain ⟨-, hlog⟩ := h
        rw [← hlog]
        have hza := countE_log_zero temps a ca la hra (.mul a b)
          (by simp [SExpr.depth]; omega)
        have hzb := countE_log_zero temps b cb lb hrb (.mul a b)
          (by simp [SExpr.depth]; omega)
        simp [countE, countE_append, hza, hzb]
      · simp at h
      · simp at h
  | solveOf a b =>
    simp only [slateToCpp] at h
    split at h
    · rename_i t hl; rw [hn] at hl; simp at hl
    · split at h
      · rename_i ca la cb lb hra hrb
        simp only [Except.ok.injEq, Prod.mk.injEq] at h
        obtain ⟨-, hlog⟩ := h
        rw [← hlog]
        have hza := countE_log_zero temps a ca la hra (.solveOf a b)
          (by simp [SExpr.depth]; omega)
        have hzb := countE_log_zero temps b cb lb hrb (.solveOf a b)
          (by simp [SExpr.depth]; omega)
        simp [countE, countE_append, hza, hzb]
      · simp at h
      · simp at h
  | blockOf a ix =>
    simp only [slateToCpp] at h
    split at h
    · rename_i t hl; rw [hn] at hl; simp at hl
    · split at h
      · split at h
        · split at h
          · rename_i ca la hr
            simp only [Except.ok.injEq, Prod.mk.injEq] at h
            obtain ⟨-, hlog⟩ := h
            rw [← hlog]
            simp [countE]
            exact countE_log_zero temps a ca la hr _ (by simp [SExpr.depth])
          · simp at h
        · simp at h
      · split at h
        · split at h
          · rename_i ca la hr
            simp only [Except.ok.injEq, Prod.mk.injEq] at h
            obtain ⟨-, hlog⟩ := h
            rw [← hlog]
            simp [countE]
            exact countE_log_zero temps a ca la hr _ (by simp [SExpr.depth])
          · simp at h
        · simp at h
      · simp at h

/-- A node with a declared temporary is rendered as that temporary's name and
expands nothing (the first branch of `slate_to_cpp`). -/
theorem slateToCpp_of_lookup (temps : List (SExpr × String)) (e : SExpr)
    (t : String) (h : lookupT temps e = some t) :
    slateToCpp temps e = .ok (.temp t, []) := by
  cases e <;> simp [slateToCpp, h]

/-- Every temporary name referenced by the code produced by `slate_to_cpp`
names a declared temporary. -/
theorem slateToCpp_refs (temps : List (SExpr × String)) (e : SExpr) :
    ∀ (c : CCode) (log : List SExpr), slateToCpp temps e = .ok (c, log) →
      ∀ r ∈ c.refs, r ∈ temps.map Prod.snd := by
  induction e with
  | tensor i s =>
    intro c log h
    simp only [slateToCpp] at h
    split at h
    · rename_i t hl
      simp only [Except.ok.injEq, Prod.mk.injEq] at h
      obtain ⟨hc, -⟩ := h
      rw [← hc]
      intro r hr
      simp [CCode.refs] at hr
      rw [hr]
      exact lookupT_mem_values temps _ t hl
    · simp at h
  | assembledVector i s =>
    intro c log h
    simp only [slateToCpp] at h
    split at h
    · rename_i t hl
      simp only [Except.ok.injEq, Prod.mk.injEq] at h
      obtain ⟨hc, -⟩ := h
      rw [← hc]
      intro r hr
      simp [CCode.refs] at hr
      rw [hr]
      exact lookupT_mem_values temps _ t hl
    · simp at h
  | factorization a d ih =>
    intro c log h
    simp only [slateToCpp] at h
    split at h
    · rename_i t hl
      simp only [Except.ok.injEq, Prod.mk.injEq] at h
      obtain ⟨hc, -⟩ := h
      rw [← hc]
      intro r hr
      simp [CCode.refs] at hr
      rw [hr]
      exact lookupT_mem_values temps _ t hl
    · simp at h
  | transpose a ih =>
    intro c log h
    simp only [slateToCpp] at h
    split at h
    · rename_i t hl
      simp only [Except.ok.injEq, Prod.mk.injEq] at h
      obtain ⟨hc, -⟩ := h
      rw [← hc]
      intro r hr
      simp [CCode.refs] at hr
      rw [hr]
      exact lookupT_mem_values temps _ t hl
    · split at h
      · rename_i ca la hrec
        simp only [Except.ok.injEq, Prod.mk.injEq] at h
        obtain ⟨hc, -⟩ := h
        rw [← hc]
        intro r hr
        simp [CCode.refs] at hr
        exact ih ca la hrec r hr
      · simp at h
  | inverse a ih =>
    intro c log h
    simp only [slateToCpp] at h
    split at h
    · rename_i t hl
      simp only [Except.ok.injEq, Prod.mk.injEq] at h
      obtain ⟨hc, -⟩ := h
      rw [← hc]
      intro r hr
      simp [CCode.refs] at hr
      rw [hr]
      exact lookupT_mem_values temps _ t hl
    · split at h
      · rename_i ca la hrec
        simp only [Except.ok.injEq, Prod.mk.injEq] at h
        obtain ⟨hc, -⟩ := h
        rw [← hc]
        intro r hr
        simp [CCode.refs] at hr
        exact ih ca la hrec r hr
      · simp at h
  | negative a ih =>
    intro c log h
    simp only [slateToCpp] at h
    split at h
    · rename_i t hl
      simp only [Except.ok.injEq, Prod.mk.injEq] at h
      obtain ⟨hc, -⟩ := h
      rw [← hc]
      intro r hr
      simp [CCode.refs] at hr
      rw [hr]
      exact lookupT_mem_values temps _ t hl
    · split at h
      · rename_i ca la hrec
        simp only [Except.ok.injEq, Prod.mk.injEq] at h
        obtain ⟨hc, -⟩ := h
        rw [← hc]
        intro r hr
        simp [CCode.refs] at hr
        exact ih ca la hrec r hr
      · simp at h
  | add a b iha ihb =>
    intro c log h
    simp only [slateToCpp] at h
    split at h
    · rename_i t hl
      simp only [Except.ok.injEq, Prod.mk.injEq] at h
      obtain ⟨hc, -⟩ := h
      rw [← hc]
      intro r hr
      simp [CCode.refs] at hr
      rw [hr]
      exact lookupT_mem_values temps _ t hl
    · split at h
      · rename_i ca la cb lb hra hrb
        simp only [Except.ok.injEq, Prod.mk.injEq] at h
        obtain ⟨hc, -⟩ := h
        rw [← hc]
        intro r hr
        simp [CCode.refs] at hr
        rcases hr with hr | hr
        · exact iha ca la hra r hr
        · exact ihb cb lb hrb r hr
      · simp at h
      · simp at h
  | mul a b iha ihb =>
    intro c log h
    simp only [slateToCpp] at h
    split at h
    · rename_i t hl
      simp only [Except.ok.injEq, Prod.mk.injEq] at h
      obtain ⟨hc, -⟩ := h
      rw [← hc]
      intro r hr
      simp [CCode.refs] at hr
      rw [hr]
      exact lookupT_mem_values temps _ t hl
    · split at h
      · rename_i ca la cb lb hra hrb
        simp only [Except.ok.injEq, Prod.mk.injEq] at h
        obtain ⟨hc, -⟩ := h
        rw [← hc]
        intro r hr
        simp [CCode.refs] at hr
        rcases hr with hr | hr
        · exact iha ca la hra r hr
        · exact ihb cb lb hrb r hr
      · simp at h
      · simp at h
  | solveOf a b iha ihb =>
    intro c log h
    simp only [slateToCpp] at h
    split at h
    · rename_i t hl
      simp only [Except.ok.injEq, Prod.mk.injEq] at h
      obtain ⟨hc, -⟩ := h
      rw [← hc]
      intro r hr
      simp [CCode.refs] at hr
      rw [hr]
      exact lookupT_mem_values temps _ t hl
    · split at h
      · rename_i ca la cb lb hra hrb
        simp only [Except.ok.injEq, Prod.mk.injEq] at h
        obtain ⟨hc, -⟩ := h
        rw [← hc]
        intro r hr
        simp [CCode.refs] at hr
        rcases hr with hr | hr
        · exact iha ca la hra r hr
        · exact ihb cb lb hrb r hr
      · simp at h
      · simp at h
  | blockOf a ix ih =>
    intro c log h
    simp only [slateToCpp] at h
    split at h
    · rename_i t hl
      simp only [Except.ok.injEq, Prod.mk.injEq] at h
      obtain ⟨hc, -⟩ := h
      rw [← hc]
      intro r hr
      simp [CCode.refs] at hr
      rw [hr]
      exact lookupT_mem_values temps _ t hl
    · split at h
      · split at h
        · split at h
          · rename_i ca la hrec
            simp only [Except.ok.injEq, Prod.mk.injEq] at h
            obtain ⟨hc, -⟩ := h
            rw [← hc]
            intro r hr
            simp [CCode.refs] at hr
            exact ih ca la hrec r hr
          · simp at h
        · simp at h
      · split at h
        · split at h
          · rename_i ca la hrec
            simp only [Except.ok.injEq, Prod.mk.injEq] at h
            obtain ⟨hc, -⟩ := h
            rw [← hc]
            intro r hr
            simp [CCode.refs] at hr
            exact ih ca la hrec r hr
          · simp at h
        · simp at h
      · simp at h

/-- Index expressions appearing in emitted loop code (COFFEE `Sum`/`Prod`
over the loop symbols; `jVar` is the Python loop symbol `j1`, `iVar` the
outer node-extent index that the spec's double-loop description uses). -/
inductive Idx where
  | iVar
  | jVar
  | const (n : Nat)
  | addI (a b : Idx)
  | mulI (a b : Idx)
deriving DecidableEq

/-- One COFFEE `Assign` inside a coefficient loop:
`target[targetIdx] = src[srcIdx]` (the source is a kernel argument, indexed by
one or more loop indices). -/
structure CAssign where
  target : String
  targetIdx : Idx
  src : String
  srcIdx : List Idx
deriving DecidableEq

/-- Body of an emitted coefficient `For` loop: the code produces a flat list
of assignments; `nested` is the doubly-nested form that the function's
docstring (and the spec) describe, kept for comparison. -/
inductive LoopBody where
  | assigns (l : List CAssign)
  | nested (bound : Nat) (l : List CAssign)
deriving DecidableEq

/-- The statements of the emitted macro kernel body.  `flat` is a COFFEE
`FlatBlock` (comments, the Eigen map, the facet cast); `decl`/`setZero` the
declaration and `setZero()` of a temporary; `assemblyCall` one external
TSFC-kernel call accumulating into its terminal temporary; `forLoop` a
coefficient-initialization loop; `auxAssign` the `Decl`+`Assign` pair of an
auxiliary temporary; `facDecl` the Eigen decomposition declaration of a
`Factorization`; `resultIncr` the final `ast.Incr` of the root expression
into the output buffer.  The `log` components carry the ghost expansion
instrumentation of `slateToCpp`; for `facDecl` the constructed node itself is
prepended, since the decomposition constructor is that node's evaluation
site. -/
inductive Stmt where
  | flat (s : String)
  | decl (t : String)
  | setZero (t : String)
  | assemblyCall (target : String)
  | forLoop (bound : Nat) (body : LoopBody)
  | auxAssign (t : String) (code : CCode) (log : List SExpr)
  | facDecl (t : String) (dec : String) (code : CCode) (log : List SExpr)
  | resultIncr (code : CCode) (log : List SExpr)
deriving DecidableEq

/-- Ghost expansion log of a statement. -/
def stmtLog : Stmt → List SExpr
  | .auxAssign _ _ l => l
  | .facDecl _ _ _ l => l
  | .resultIncr _ l => l
  | _ => []

/-- Number of evaluation sites of a DAG node in an emitted statement list. -/
def evalSites (n : SExpr) (stmts : List Stmt) : Nat :=
  (stmts.map fun s => countE n (stmtLog s)).sum

/-- Temporary names a statement reads.  Coefficient loops read only kernel
arguments (`w_i` buffers), never temporaries; an assembly call accumulates
into its target, hence also reads it. -/
def stmtReads : Stmt → List String
  | .assemblyCall t => [t]
  | .auxAssign _ c _ => c.refs
  | .facDecl _ _ c _ => c.refs
  | .resultIncr c _ => c.refs
  | _ => []

/-- Temporary names a statement writes (zero-filling counts as a write). -/
def stmtWrites : Stmt → List String
  | .setZero t => [t]
  | .assemblyCall t => [t]
  | .forLoop _ (.assigns l) => l.map CAssign.target
  | .forLoop _ (.nested _ l) => l.map CAssign.target
  | .auxAssign t _ _ => [t]
  | .facDecl t _ _ _ => [t]
  | _ => []

/-- `noReadBeforeWrite stmts written`: scanning the statement sequence in
order, every temporary a statement reads has been written by an earlier
statement (or belongs to `written`, the names already written before the
sequence starts). -/
def nrbw : List Stmt → List String → Bool
  | [], _ => true
  | s :: rest, written =>
    (stmtReads s).all (fun r => decide (r ∈ written)) && nrbw rest (written ++ stmtWrites s)

/-- Modelled from the spec: one entry of `builder.coefficient_vecs`
(`CoefficientInfo` of kernel_builder.py, which is not among the sources):
the position in the mixed space, the cumulative DOF offset among prior
siblings, the node/DOF shape, the `AssembledVector` terminal, the assigned
temporary name, and the kernel-argument name of the coefficient data
(`builder.coefficient(function)[fs_i]`). -/
structure CoeffInfo where
  spaceIndex : Nat
  offsetIndex : Nat
  shape : List Nat
  vector : SExpr
  localTemp : String
  src : String
deriving DecidableEq

/-- The inner loop of `coefficient_temporaries` over one group's
`cinfo_list`: emits a declaration for each not-yet-declared coefficient
temporary and one assignment `t[offset + j1] = w[j1]` per component. -/
def coeffGroup : List CoeffInfo → List Stmt → List CAssign → List (SExpr × String) →
    (List Stmt × List CAssign × List (SExpr × String))
  | [], decls, asgns, temps => (decls, asgns, temps)
  | ci :: rest, decls, asgns, temps =>
    let step :=
      if (lookupT temps ci.vector).isSome then (decls, temps)
      else (decls ++ [Stmt.decl ci.localTemp], (ci.vector, ci.localTemp) :: temps)
    coeffGroup rest step.1
      (asgns ++ [⟨ci.localTemp, .addI (.const ci.offsetIndex) .jVar, ci.src, [Idx.jVar]⟩])
      step.2

/-- The group iteration of `coefficient_temporaries` (lines 431-466):
declarations are collected into `statements`, one single `For` loop over the
group's shared `dofs` extent is collected into `loops` per group. -/
def coefficientTempsAux : List (Nat × List CoeffInfo) → List (SExpr × String) →
    (List Stmt × List Stmt × List (SExpr × String))
  | [], temps => ([], [], temps)
  | (dofs, cinfos) :: rest, temps =>
    let g := coeffGroup cinfos [] [] temps
    let r := coefficientTempsAux rest g.2.2
    (g.1 ++ r.1, Stmt.forLoop dofs (.assigns g.2.1) :: r.2.1, r.2.2)

/-- `coefficient_temporaries(builder, declared_temps)`: the comment block,
then all declarations, then the comment for the loops, then all loops
(`statements.extend(loops)`). -/
def coefficientTemps (vecs : List (Nat × List CoeffInfo))
    (temps : List (SExpr × String)) : List Stmt × List (SExpr × String) :=
  let r := coefficientTempsAux vecs temps
  (Stmt.flat "/* Coefficient temporaries */" :: r.1
     ++ Stmt.flat "/* Loops for coefficient temps */" :: r.2.1, r.2.2)

/-- The filter of `auxiliary_expressions` selecting `sorted_exprs`:
`(ref_counter[exp] > 1 and not isinstance(exp, terminals)) or
isinstance(exp, Factorization)`. -/
def auxFilter (ref : SExpr → Nat) (e : SExpr) : Bool :=
  (decide (1 < ref e) && !e.isExempt) || e.isFactorization

/-- The loop of `auxiliary_expressions` over `sorted_exprs` (lines 374-392):
a node already in `declared_temps` is skipped; a `Factorization` gets an
Eigen decomposition declaration `dec%d` built from its operand's translation;
any other node gets a `Decl` plus `Assign` of its own translation into a
fresh `auxT%d`; in both cases the node is then recorded in
`declared_temps`. -/
def auxLoop : List SExpr → List (SExpr × String) →
    Except SlacError (List Stmt × List (SExpr × String))
  | [], temps => .ok ([], temps)
  | e :: rest, temps =>
    if (lookupT temps e).isSome then auxLoop rest temps
    else
      match e with
      | .factorization op dec =>
        let t := "dec" ++ toString temps.length
        match slateToCpp temps op with
        | .ok (c, lg) =>
          match auxLoop rest ((SExpr.factorization op dec, t) :: temps) with
          | .ok (stmts, temps') =>
            .ok (Stmt.facDecl t dec c (SExpr.factorization op dec :: lg) :: stmts, temps')
          | .error err => .error err
        | .error err => .error err
      | _ =>
        let t := "auxT" ++ toString temps.length
        match slateToCpp temps e with
        | .ok (c, lg) =>
          match auxLoop rest ((e, t) :: temps) with
          | .ok (stmts, temps') =>
            .ok (Stmt.decl t :: Stmt.auxAssign t c lg :: stmts, temps')
          | .error err => .error err
        | .error err => .error err

/-- Modelled from the spec: the state of `LocalKernelBuilder`
(kernel_builder.py is not among the sources) that `generate_kernel`
consumes: the expression DAG in dependency order (`topological_sort`), the
derived per-node reference counter, the pre-translated terminal temporaries
(`builder.temps`), the terminal targets of the assembly calls (each external
TSFC kernel accumulates into the terminal temporary of its `Tensor`), the
coefficient layout table (`builder.coefficient_vecs`), the root expression
and the facet flag. -/
structure KBuilder where
  topo : List SExpr
  ref : SExpr → Nat
  temps : List (SExpr × String)
  assemblyTargets : List String
  coeffVecs : List (Nat × List CoeffInfo)
  expression : SExpr
  needsCellFacets : Bool

/-- `terminal_temporaries` (lines 588-607): a `Decl` and a `setZero()` for
every terminal temporary, in the builder's order. -/
def terminalStmtsOf (b : KBuilder) : List Stmt :=
  Stmt.flat "/* Declare and initialize */"
    :: b.temps.flatMap fun p => [Stmt.decl p.2, Stmt.setZero p.2]

/-- The assembly-call block of `tensor_assembly_calls` as it enters the
statement list of `generate_kernel`.  The facet-loop and mesh-layer control
structure around the facet/layer calls is modelled separately
(`facetLoopOf`, `layerDispatch`); for the statement-ordering properties the
calls are represented by their accumulation targets. -/
def assemblyStmtsOf (b : KBuilder) : List Stmt :=
  Stmt.flat "/* Assemble local tensors */" :: b.assemblyTargets.map Stmt.assemblyCall

/-- The coefficient-temporary block of `generate_kernel` (emitted only when
`builder.coefficient_vecs` is nonempty) together with the updated
`declared_temps`. -/
def coeffPart (b : KBuilder) : List Stmt × List (SExpr × String) :=
  if b.coeffVecs.isEmpty then ([], b.temps)
  else coefficientTemps b.coeffVecs b.temps

/-- `auxiliary_expressions(builder, declared_temps)`: the loop over the
topologically sorted, filtered DAG nodes, starting from the temporaries
declared by the terminal and coefficient stages. -/
def auxResult (b : KBuilder) : Except SlacError (List Stmt × List (SExpr × String)) :=
  auxLoop (b.topo.filter (auxFilter b.ref)) (coeffPart b).2

/-- The full statement list of the emitted macro kernel, in the order of
`generate_kernel` (lines 205-226) and `generate_kernel_ast` (lines 254-271,
256-300): the facet cast inserted at position 0 when needed, terminal
declarations and zero-fills, assembly calls, coefficient temporaries,
auxiliary temporaries, then the Eigen map and the final `ast.Incr` of the
lowered root expression into the output buffer. -/
def generateKernel (b : KBuilder) : Except SlacError (List Stmt) :=
  match auxResult b with
  | .error err => .error err
  | .ok (auxStmts, temps3) =>
    match slateToCpp temps3 b.expression with
    | .error err => .error err
    | .ok (code, lg) =>
      .ok ((if b.needsCellFacets then [Stmt.flat "/* facet cast */"] else [])
        ++ terminalStmtsOf b ++ assemblyStmtsOf b ++ (coeffPart b).1 ++ auxStmts
        ++ [Stmt.flat "/* Map eigen tensor into C struct */",
            Stmt.flat "/* eigen map of output */",
            Stmt.flat "/* Linear algebra expression */",
            Stmt.resultIncr code lg])

/-- Whether `auxiliary_expressions` assigned the node a fresh auxiliary
temporary: the node is in `declared_temps` after that stage but was not
before it. -/
def assignedAuxTemp (b : KBuilder) (e : SExpr) : Bool :=
  match auxResult b with
  | .ok (_, temps3) => (lookupT temps3 e).isSome && !(lookupT (coeffPart b).2 e).isSome
  | .error _ => false

theorem lookupT_cons (k : SExpr) (v : String) (temps : List (SExpr × String))
    (n : SExpr) :
    lookupT ((k, v) :: temps) n = if k = n then some v else lookupT temps n := rfl

theorem evalSites_nil (n : SExpr) : evalSites n [] = 0 := rfl

theorem evalSites_cons (n : SExpr) (s : Stmt) (rest : List Stmt) :
    evalSites n (s :: rest) = countE n (stmtLog s) + evalSites n rest := by
  simp [evalSites]

theorem evalSites_append (n : SExpr) (xs ys : List Stmt) :
    evalSites n (xs ++ ys) = evalSites n xs + evalSites n ys := by
  simp [evalSites]

/-- `auxiliary_expressions` never overwrites an existing `declared_temps`
binding. -/
theorem auxLoop_lookup_preserved : ∀ (l : List SExpr) (temps : List (SExpr × String))
    (stmts : List Stmt) (temps' : List (SExpr × String)),
    auxLoop l temps = .ok (stmts, temps') →
    ∀ (n : SExpr) (t : String), lookupT temps n = some t → lookupT temps' n = some t := by
  intro l
  induction l with
  | nil =>
    intro temps stmts temps' h n t hn
    simp only [auxLoop, Except.ok.injEq, Prod.mk.injEq] at h
    obtain ⟨-, h2⟩ := h
    rw [← h2]
    exact hn
  | cons e rest ih =>
    intro temps stmts temps' h n t hn
    simp only [auxLoop] at h
    split at h
    · exact ih temps stmts temps' h n t hn
    · rename_i he
      have hne : e ≠ n := by
        intro hcontra
        rw [hcontra, hn] at he
        simp at he
      split at h
      · rename_i op dec
        split at h
        · rename_i c lg hcpp
          split at h
          · rename_i stmts2 temps2 hrec
            simp only [Except.ok.injEq, Prod.mk.injEq] at h
            obtain ⟨-, h2⟩ := h
            rw [← h2]
            refine ih _ _ _ hrec n t ?_
            rw [lookupT_cons, if_neg hne]
            exact hn
          · simp at h
        · simp at h
      · split at h
        · rename_i c lg hcpp
          split at h
          · rename_i stmts2 temps2 hrec
            simp only [Except.ok.injEq, Prod.mk.injEq] at h
            obtain ⟨-, h2⟩ := h
            rw [← h2]
            refine ih _ _ _ hrec n t ?_
            rw [lookupT_cons, if_neg hne]
            exact hn
          · simp at h
        · simp at h

/-- After `auxiliary_expressions`, every processed node has a declared
temporary. -/
theorem auxLoop_mem : ∀ (l : List SExpr) (temps : List (SExpr × String))
    (stmts : List Stmt) (temps' : List (SExpr × String)),
    auxLoop l temps = .ok (stmts, temps') →
    ∀ e ∈ l, (lookupT temps' e).isSome = true := by
  intro l
  induction l with
  | nil => intro temps stmts temps' h e he; simp at he
  | cons e0 rest ih =>
    intro temps stmts temps' h e he
    simp only [auxLoop] at h
    split at h
    · rename_i he0
      rcases List.mem_cons.mp he with rfl | he
      · obtain ⟨t, ht⟩ := Option.isSome_iff_exists.mp he0
        rw [auxLoop_lookup_preserved rest temps stmts temps' h e t ht]
        rfl
      · exact ih temps stmts temps' h e he
    · rename_i he0
      split at h
      · rename_i op dec
        split at h
        · rename_i c lg hcpp
          split at h
          · rename_i stmts2 temps2 hrec
            simp only [Except.ok.injEq, Prod.mk.injEq] at h
            obtain ⟨-, h2⟩ := h
            rw [← h2]
            rcases List.mem_cons.mp he with rfl | he
            · have hins : lookupT
                  ((SExpr.factorization op dec, "dec" ++ toString temps.length) :: temps)
                  (SExpr.factorization op dec)
                  = some ("dec" ++ toString temps.length) := by
                rw [lookupT_cons, if_pos rfl]
              rw [auxLoop_lookup_preserved rest _ stmts2 temps2 hrec _ _ hins]
              rfl
            · exact ih _ _ _ hrec e he
          · simp at h
        · simp at h
      · split at h
        · rename_i c lg hcpp
          split at h
          · rename_i stmts2 temps2 hrec
            simp only [Except.ok.injEq, Prod.mk.injEq] at h
            obtain ⟨-, h2⟩ := h
            rw [← h2]
            rcases List.mem_cons.mp he with rfl | he
            · have : lookupT ((e, "auxT" ++ toString temps.length) :: temps) e
                  = some ("auxT" ++ toString temps.length) := by
                rw [lookupT_cons, if_pos rfl]
              rw [auxLoop_lookup_preserved rest _ stmts2 temps2 hrec e _ this]
              rfl
            · exact ih _ _ _ hrec e he
          · simp at h
        · simp at h

/-- `auxiliary_expressions` adds bindings only for nodes of the processed
list. -/
theorem auxLoop_new_keys : ∀ (l : List SExpr) (temps : List (SExpr × String))
    (stmts : List Stmt) (temps' : List (SExpr × String)),
    auxLoop l temps = .ok (stmts, temps') →
    ∀ e : SExpr, lookupT temps e = none → (lookupT temps' e).isSome = true → e ∈ l := by
  intro l
  induction l with
  | nil =>
    intro temps stmts temps' h e hnone hsome
    simp only [auxLoop, Except.ok.injEq, Prod.mk.injEq] at h
    obtain ⟨-, h2⟩ := h
    rw [← h2, hnone] at hsome
    simp at hsome
  | cons e0 rest ih =>
    intro temps stmts temps' h e hnone hsome
    simp only [auxLoop] at h
    split at h
    · exact List.mem_cons_of_mem e0 (ih temps stmts temps' h e hnone hsome)
    · rename_i he0
      by_cases heq : e0 = e
      · exact heq ▸ List.mem_cons_self e0 rest
      · split at h
        · rename_i op dec
          split at h
          · rename_i c lg hcpp
            split at h
            · rename_i stmts2 temps2 hrec
              simp only [Except.ok.injEq, Prod.mk.injEq] at h
              obtain ⟨-, h2⟩ := h
              rw [← h2] at hsome
              refine List.mem_cons_of_mem _ (ih _ _ _ hrec e ?_ hsome)
              rw [lookupT_cons, if_neg heq]
              exact hnone
            · simp at h
          · simp at h
        · split at h
          · rename_i c lg hcpp
            split at h
            · rename_i stmts2 temps2 hrec
              simp only [Except.ok.injEq, Prod.mk.injEq] at h
              obtain ⟨-, h2⟩ := h
              rw [← h2] at hsome
              refine List.mem_cons_of_mem e0 (ih _ _ _ hrec e ?_ hsome)
              rw [lookupT_cons, if_neg heq]
              exact hnone
            · simp at h
          · simp at h

/-- A node that already has a declared temporary is never expanded by the
`auxiliary_expressions` loop. -/
theorem auxLoop_count_zero : ∀ (l : List SExpr) (temps : List (SExpr × String))
    (stmts : List Stmt) (temps' : List (SExpr × String)),
    auxLoop l temps = .ok (stmts, temps') →
    ∀ n : SExpr, (lookupT temps n).isSome = true → evalSites n stmts = 0 := by
  intro l
  induction l with
  | nil =>
    intro temps stmts temps' h n hn
    simp only [auxLoop, Except.ok.injEq, Prod.mk.injEq] at h
    obtain ⟨h1, -⟩ := h
    rw [← h1]
    rfl
  | cons e0 rest ih =>
    intro temps stmts temps' h n hn
    simp only [auxLoop] at h
    split at h
    · exact ih temps stmts temps' h n hn
    · rename_i he0
      split at h
      · rename_i op dec
        split at h
        · rename_i c lg hcpp
          split at h
          · rename_i stmts2 temps2 hrec
            simp only [Except.ok.injEq, Prod.mk.injEq] at h
            obtain ⟨h1, -⟩ := h
            rw [← h1, evalSites_cons]
            have hhead : countE n (stmtLog (Stmt.facDecl ("dec" ++ toString temps.length)
                dec c (SExpr.factorization op dec :: lg))) = 0 := by
              simp only [stmtLog]
              apply countE_eq_zero
              intro m hm hmeq
              rcases List.mem_cons.mp hm with hm | hm
              · have hnf : n = SExpr.factorization op dec := hmeq ▸ hm
                rw [hnf] at hn
                exact he0 hn
              · obtain ⟨hm1, -⟩ := slateToCpp_log_mem temps op c lg hcpp m hm
                rw [hmeq] at hm1
                rw [hm1] at hn
                simp at hn
            rw [hhead]
            have htail : evalSites n stmts2 = 0 := by
              refine ih _ _ _ hrec n ?_
              rw [lookupT_cons]
              split
              · rfl
              · exact hn
            rw [htail]
          · simp at h
        · simp at h
      · split at h
        · rename_i c lg hcpp
          split at h
          · rename_i stmts2 temps2 hrec
            simp only [Except.ok.injEq, Prod.mk.injEq] at h
            obtain ⟨h1, -⟩ := h
            rw [← h1, evalSites_cons, evalSites_cons]
            have hhead : countE n (stmtLog (Stmt.auxAssign ("auxT" ++ toString temps.length)
                c lg)) = 0 := by
              simp only [stmtLog]
              apply countE_eq_zero
              intro m hm hmeq
              obtain ⟨hm1, -⟩ := slateToCpp_log_mem temps e0 c lg hcpp m hm
              rw [hmeq] at hm1
              rw [hm1] at hn
              simp at hn
            rw [hhead]
            have htail : evalSites n stmts2 = 0 := by
              refine ih _ _ _ hrec n ?_
              rw [lookupT_cons]
              split
              · rfl
              · exact hn
            rw [htail]
            rfl
          · simp at h
        · simp at h

/-- A shared node processed by the `auxiliary_expressions` loop is expanded
exactly once in the statements the loop emits, provided the processed list is
dependency ordered (no later entry occurs inside an earlier one). -/
theorem auxLoop_count_once : ∀ (l : List SExpr) (temps : List (SExpr × String))
    (stmts : List Stmt) (temps' : List (SExpr × String)),
    auxLoop l temps = .ok (stmts, temps') →
    ∀ n : SExpr, lookupT temps n = none → n ∈ l →
    l.Pairwise (fun a c => SExpr.occursIn c a = false) →
    evalSites n stmts = 1 := by
  intro l
  induction l with
  | nil =>
    intro temps stmts temps' h n hn hmem hpair
    simp at hmem
  | cons e0 rest ih =>
    intro temps stmts temps' h n hn hmem hpair
    simp only [auxLoop] at h
    by_cases hen : e0 = n
    · subst hen
      split at h
      · rename_i he0
        rw [hn] at he0
        simp at he0
      · rename_i he0
        split at h
        · rename_i op dec
          split at h
          · rename_i c lg hcpp
            split at h
            · rename_i stmts2 temps2 hrec
              simp only [Except.ok.injEq, Prod.mk.injEq] at h
              obtain ⟨h1, -⟩ := h
              rw [← h1, evalSites_cons]
              have hhead : countE (SExpr.factorization op dec)
                  (stmtLog (Stmt.facDecl ("dec" ++ toString temps.length)
                    dec c (SExpr.factorization op dec :: lg))) = 1 := by
                simp only [stmtLog, countE, if_pos rfl]
                have hz := countE_log_zero temps op c lg hcpp
                  (SExpr.factorization op dec) (by simp [SExpr.depth])
                rw [hz]
                simp
              rw [hhead]
              have htail : evalSites (SExpr.factorization op dec) stmts2 = 0 := by
                refine auxLoop_count_zero rest _ stmts2 temps2 hrec _ ?_
                rw [lookupT_cons, if_pos rfl]
                rfl
              rw [htail]
            · simp at h
          · simp at h
        · rename_i hnotfac
          split at h
          · rename_i c lg hcpp
            split at h
            · rename_i stmts2 temps2 hrec
              simp only [Except.ok.injEq, Prod.mk.injEq] at h
              obtain ⟨h1, -⟩ := h
              rw [← h1, evalSites_cons, evalSites_cons]
              have hhead : countE e0 (stmtLog (Stmt.auxAssign
                  ("auxT" ++ toString temps.length) c lg)) = 1 := by
                simp only [stmtLog]
                exact slateToCpp_self_count temps e0 c lg hn hcpp
              rw [hhead]
              have htail : evalSites e0 stmts2 = 0 := by
                refine auxLoop_count_zero rest _ stmts2 temps2 hrec _ ?_
                rw [lookupT_cons, if_pos rfl]
                rfl
              rw [htail]
              rfl
            · simp at h
          · simp at h
    · have hmem' : n ∈ rest := by
        rcases List.mem_cons.mp hmem with hmm | hmm
        · exact absurd hmm.symm hen
        · exact hmm
      have hocc : SExpr.occursIn n e0 = false :=
        (List.pairwise_cons.mp hpair).1 n hmem'
      have hpair' := (List.pairwise_cons.mp hpair).2
      split at h
      · exact ih temps stmts temps' h n hn hmem' hpair'
      · rename_i he0
        split at h
        · rename_i op dec
          split at h
          · rename_i c lg hcpp
            split at h
            · rename_i stmts2 temps2 hrec
              simp only [Except.ok.injEq, Prod.mk.injEq] at h
              obtain ⟨h1, -⟩ := h
              rw [← h1, evalSites_cons]
              have hhead : countE n (stmtLog (Stmt.facDecl ("dec" ++ toString temps.length)
                  dec c (SExpr.factorization op dec :: lg))) = 0 := by
                simp only [stmtLog]
                apply countE_eq_zero
                intro m hm hmeq
                rcases List.mem_cons.mp hm with hm | hm
                · rw [hmeq] at hm
                  exact hen hm.symm
                · obtain ⟨-, hm2⟩ := slateToCpp_log_mem temps op c lg hcpp m hm
                  rw [hmeq] at hm2
                  have : SExpr.occursIn n (SExpr.factorization op dec) = true := by
                    simp [SExpr.occursIn, hm2]
                  rw [hocc] at this
                  exact Bool.false_ne_true this
              rw [hhead]
              have htail : evalSites n stmts2 = 1 := by
                refine ih _ _ _ hrec n ?_ hmem' hpair'
                rw [lookupT_cons, if_neg hen]
                exact hn
              rw [htail]
            · simp at h
          · simp at h
        · split at h
          · rename_i c lg hcpp
            split at h
            · rename_i stmts2 temps2 hrec
              simp only [Except.ok.injEq, Prod.mk.injEq] at h
              obtain ⟨h1, -⟩ := h
              rw [← h1, evalSites_cons, evalSites_cons]
              have hhead : countE n (stmtLog (Stmt.auxAssign
                  ("auxT" ++ toString temps.length) c lg)) = 0 := by
                simp only [stmtLog]
                apply countE_eq_zero
                intro m hm hmeq
                obtain ⟨-, hm2⟩ := slateToCpp_log_mem temps e0 c lg hcpp m hm
                rw [hmeq] at hm2
                rw [hocc] at hm2
                exact Bool.false_ne_true hm2
              rw [hhead]
              have htail : evalSites n stmts2 = 1 := by
                refine ih _ _ _ hrec n ?_ hmem' hpair'
                rw [lookupT_cons, if_neg hen]
                exact hn
              rw [htail]
              rfl
            · simp at h
          · simp at h

theorem lookupT_none_of_keys (temps : List (SExpr × String)) (n : SExpr)
    (h : ∀ p ∈ temps, p.1 ≠ n) : lookupT temps n = none := by
  induction temps with
  | nil => rfl
  | cons p rest ih =>
    obtain ⟨k, v⟩ := p
    have hk : k ≠ n := h (k, v) (by simp)
    rw [lookupT_cons, if_neg hk]
    exact ih fun q hq => h q (by simp [hq])

theorem coeffGroup_lookup_none (n : SExpr) : ∀ (cinfos : List CoeffInfo)
    (decls : List Stmt) (asgns : List CAssign) (temps : List (SExpr × String)),
    (∀ ci ∈ cinfos, ci.vector ≠ n) → lookupT temps n = none →
    lookupT (coeffGroup cinfos decls asgns temps).2.2 n = none := by
  intro cinfos
  induction cinfos with
  | nil => intro decls asgns temps hv hn; simpa [coeffGroup] using hn
  | cons ci rest ih =>
    intro decls asgns temps hv hn
    simp only [coeffGroup]
    split
    · exact ih _ _ _ (fun c hc => hv c (by simp [hc])) hn
    · refine ih _ _ _ (fun c hc => hv c (by simp [hc])) ?_
      rw [lookupT_cons, if_neg (hv ci (by simp))]
      exact hn

theorem coefficientTempsAux_lookup_none (n : SExpr) :
    ∀ (vecs : List (Nat × List CoeffInfo)) (temps : List (SExpr × String)),
    (∀ g ∈ vecs, ∀ ci ∈ g.2, ci.vector ≠ n) → lookupT temps n = none →
    lookupT (coefficientTempsAux vecs temps).2.2 n = none := by
  intro vecs
  induction vecs with
  | nil => intro temps hv hn; simpa [coefficientTempsAux] using hn
  | cons g rest ih =>
    obtain ⟨dofs, cinfos⟩ := g
    intro temps hv hn
    simp only [coefficientTempsAux]
    refine ih _ (fun g' hg' => hv g' (by simp [hg'])) ?_
    exact coeffGroup_lookup_none n cinfos [] [] temps
      (fun ci hc => hv (dofs, cinfos) (by simp) ci hc) hn

theorem coeffPart_lookup_none (b : KBuilder) (n : SExpr)
    (hT : ∀ p ∈ b.temps, p.1 ≠ n)
    (hC : ∀ g ∈ b.coeffVecs, ∀ ci ∈ g.2, ci.vector ≠ n) :
    lookupT (coeffPart b).2 n = none := by
  have hbase : lookupT b.temps n = none := lookupT_none_of_keys b.temps n hT
  simp only [coeffPart]
  split
  · exact hbase
  · simp only [coefficientTemps]
    exact coefficientTempsAux_lookup_none n b.coeffVecs b.temps hC hbase

theorem evalSites_zero_of_logless (n : SExpr) (stmts : List Stmt)
    (h : ∀ s ∈ stmts, stmtLog s = []) : evalSites n stmts = 0 := by
  induction stmts with
  | nil => rfl
  | cons s rest ih =>
    rw [evalSites_cons, h s (by simp), ih fun s' hs' => h s' (by simp [hs'])]
    rfl

theorem coeffGroup_log : ∀ (cinfos : List CoeffInfo) (decls : List Stmt)
    (asgns : List CAssign) (temps : List (SExpr × String)),
    (∀ s ∈ decls, stmtLog s = []) →
    ∀ s ∈ (coeffGroup cinfos decls asgns temps).1, stmtLog s = [] := by
  intro cinfos
  induction cinfos with
  | nil => intro decls asgns temps hd s hs; exact hd s hs
  | cons ci rest ih =>
    intro decls asgns temps hd s hs
    simp only [coeffGroup] at hs
    split at hs
    · exact ih _ _ _ hd s hs
    · refine ih _ _ _ ?_ s hs
      intro s' hs'
      rcases List.mem_append.mp hs' with hs' | hs'
      · exact hd s' hs'
      · simp at hs'
        rw [hs']
        rfl

theorem coefficientTempsAux_log : ∀ (vecs : List (Nat × List CoeffInfo))
    (temps : List (SExpr × String)),
    (∀ s ∈ (coefficientTempsAux vecs temps).1, stmtLog s = [])
    ∧ (∀ s ∈ (coefficientTempsAux vecs temps).2.1, stmtLog s = []) := by
  intro vecs
  induction vecs with
  | nil => intro temps; constructor <;> (intro s hs; simp [coefficientTempsAux] at hs)
  | cons g rest ih =>
    obtain ⟨dofs, cinfos⟩ := g
    intro temps
    simp only [coefficientTempsAux]
    constructor
    · intro s hs
      rcases List.mem_append.mp hs with hs | hs
      · exact coeffGroup_log cinfos [] [] temps (by intro s' hs'; simp at hs') s hs
      · exact (ih _).1 s hs
    · intro s hs
      rcases List.mem_cons.mp hs with hs | hs
      · rw [hs]; rfl
      · exact (ih _).2 s hs

theorem coeffPart_log (b : KBuilder) : ∀ s ∈ (coeffPart b).1, stmtLog s = [] := by
  intro s hs
  simp only [coeffPart] at hs
  split at hs
  · simp at hs
  · simp only [coefficientTemps] at hs
    rcases List.mem_cons.mp hs with hs | hs
    · rw [hs]; rfl
    · rcases List.mem_append.mp hs with hs | hs
      · exact (coefficientTempsAux_log b.coeffVecs b.temps).1 s hs
      · rcases List.mem_cons.mp hs with hs | hs
        · rw [hs]; rfl
        · exact (coefficientTempsAux_log b.coeffVecs b.temps).2 s hs

theorem terminalStmts_log (b : KBuilder) :
    ∀ s ∈ terminalStmtsOf b, stmtLog s = [] := by
  intro s hs
  simp only [terminalStmtsOf] at hs
  rcases List.mem_cons.mp hs with hs | hs
  · rw [hs]; rfl
  · rw [List.mem_flatMap] at hs
    obtain ⟨p, -, hp⟩ := hs
    simp at hp
    rcases hp with hp | hp <;> (rw [hp]; rfl)

theorem assemblyStmts_log (b : KBuilder) :
    ∀ s ∈ assemblyStmtsOf b, stmtLog s = [] := by
  intro s hs
  simp only [assemblyStmtsOf] at hs
  rcases List.mem_cons.mp hs with hs | hs
  · rw [hs]; rfl
  · rw [List.mem_map] at hs
    obtain ⟨t, -, ht⟩ := hs
    rw [← ht]
    rfl

/-- The statement list of the emitted kernel (empty when compilation failed). -/
def emittedStmts (b : KBuilder) : List Stmt :=
  match generateKernel b with
  | .ok stmts => stmts
  | .error _ => []

theorem generateKernel_decomp (b : KBuilder) (hok : (generateKernel b).isOk = true) :
    ∃ (auxStmts : List Stmt) (temps3 : List (SExpr × String)) (code : CCode)
      (lg : List SExpr),
      auxResult b = .ok (auxStmts, temps3)
      ∧ slateToCpp temps3 b.expression = .ok (code, lg)
      ∧ emittedStmts b =
          (if b.needsCellFacets then [Stmt.flat "/* facet cast */"] else [])
            ++ terminalStmtsOf b ++ assemblyStmtsOf b ++ (coeffPart b).1 ++ auxStmts
            ++ [Stmt.flat "/* Map eigen tensor into C struct */",
                Stmt.flat "/* eigen map of output */",
                Stmt.flat "/* Linear algebra expression */",
                Stmt.resultIncr code lg] := by
  cases ha : auxResult b with
  | error err => simp [generateKernel, ha, Except.isOk, Except.toBool] at hok
  | ok p =>
    obtain ⟨auxStmts, temps3⟩ := p
    cases hc : slateToCpp temps3 b.expression with
    | error err => simp [generateKernel, ha, hc, Except.isOk, Except.toBool] at hok
    | ok q =>
      obtain ⟨code, lg⟩ := q
      exact ⟨auxStmts, temps3, code, lg, rfl, hc, by simp [emittedStmts, generateKernel, ha, hc]⟩

/-- C1: In the emitted kernel an auxiliary temporary is assigned to a DAG
node if and only if the node is a `Factorization`, or its reference count
exceeds 1 and it is not a `Tensor`/`AssembledVector`/`Transpose`/`Negative`;
consequently every such shared node is expanded exactly once in the whole
emitted statement sequence (all other uses go through its temporary). -/
theorem aux_temp_rule (b : KBuilder)
    (hok : (generateKernel b).isOk = true)
    (hterm : ∀ p ∈ b.temps, p.1.isTerminalTensor = true)
    (hcoef : ∀ g ∈ b.coeffVecs, ∀ ci ∈ g.2, ci.vector.isTerminalTensor = true)
    (hpair : b.topo.Pairwise (fun a c => SExpr.occursIn c a = false)) :
    (∀ e ∈ b.topo, assignedAuxTemp b e
        = (e.isFactorization || (decide (1 < b.ref e) && !e.isExempt)))
    ∧ ∀ n ∈ b.topo, 1 < b.ref n → n.isExempt = false →
        assignedAuxTemp b n = true ∧ evalSites n (emittedStmts b) = 1 := by
  obtain ⟨auxStmts, temps3, code, lg, ha, hc, hemit⟩ := generateKernel_decomp b hok
  have hnone : ∀ e : SExpr, e.isTerminalTensor = false →
      lookupT (coeffPart b).2 e = none := by
    intro e he
    refine coeffPart_lookup_none b e ?_ ?_
    · intro p hp hpe
      have hpt := hterm p hp
      rw [hpe, he] at hpt
      cases hpt
    · intro g hg ci hci hce
      have hct := hcoef g hg ci hci
      rw [hce, he] at hct
      cases hct
  have hfilter_not_term : ∀ e : SExpr, auxFilter b.ref e = true →
      e.isTerminalTensor = false := by
    intro e hf
    cases e <;> simp_all [auxFilter, SExpr.isExempt, SExpr.isFactorization,
      SExpr.isTerminalTensor]
  have hflip : ∀ e : SExpr,
      (e.isFactorization || (decide (1 < b.ref e) && !e.isExempt))
        = auxFilter b.ref e := by
    intro e
    simp [auxFilter, Bool.or_comm]
  have hpairf : (b.topo.filter (auxFilter b.ref)).Pairwise
      (fun a c => SExpr.occursIn c a = false) :=
    List.Pairwise.sublist (List.filter_sublist _) hpair
  constructor
  · intro e he
    have hassigned : assignedAuxTemp b e
        = ((lookupT temps3 e).isSome && !(lookupT (coeffPart b).2 e).isSome) := by
      simp [assignedAuxTemp, ha]
    rw [hflip e]
    cases hf : auxFilter b.ref e with
    | true =>
      have hmemf : e ∈ b.topo.filter (auxFilter b.ref) :=
        List.mem_filter.mpr ⟨he, hf⟩
      have h1 := auxLoop_mem _ _ auxStmts temps3 ha e hmemf
      have h2 := hnone e (hfilter_not_term e hf)
      rw [hassigned, h1, h2]
      rfl
    | false =>
      rw [hassigned]
      cases hl2 : lookupT (coeffPart b).2 e with
      | some t => simp [hl2]
      | none =>
        cases hl3 : (lookupT temps3 e).isSome with
        | false => simp [hl3]
        | true =>
          exfalso
          have hmemf := auxLoop_new_keys _ _ auxStmts temps3 ha e hl2 hl3
          have hft := (List.mem_filter.mp hmemf).2
          rw [hf] at hft
          cases hft
  · intro n hn href hexempt
    have hf : auxFilter b.ref n = true := by
      simp [auxFilter, hexempt, href]
    have hmemf : n ∈ b.topo.filter (auxFilter b.ref) :=
      List.mem_filter.mpr ⟨hn, hf⟩
    have h2 : lookupT (coeffPart b).2 n = none := hnone n (hfilter_not_term n hf)
    have h1 := auxLoop_mem _ _ auxStmts temps3 ha n hmemf
    constructor
    · simp [assignedAuxTemp, ha, h1, h2]
    · rw [hemit]
      rw [evalSites_append, evalSites_append, evalSites_append, evalSites_append,
        evalSites_append]
      have hcast : evalSites n
          (if b.needsCellFacets then [Stmt.flat "/* facet cast */"] else []) = 0 := by
        split <;> simp [evalSites, stmtLog, countE]
      have hterm0 := evalSites_zero_of_logless n _ (terminalStmts_log b)
      have hasm0 := evalSites_zero_of_logless n _ (assemblyStmts_log b)
      have hcoeff0 := evalSites_zero_of_logless n _ (coeffPart_log b)
      have haux1 := auxLoop_count_once _ _ auxStmts temps3 ha n h2 hmemf hpairf
      have hfinal : evalSites n
          [Stmt.flat "/* Map eigen tensor into C struct */",
           Stmt.flat "/* eigen map of output */",
           Stmt.flat "/* Linear algebra expression */",
           Stmt.resultIncr code lg] = 0 := by
        have hlg : countE n lg = 0 := by
          apply countE_eq_zero
          intro m hm hmeq
          obtain ⟨hm1, -⟩ := slateToCpp_log_mem temps3 b.expression code lg hc m hm
          rw [hmeq] at hm1
          rw [hm1] at h1
          cases h1
        simp [evalSites, stmtLog, countE, hlg]
      rw [hcast, hterm0, hasm0, hcoeff0, haux1, hfinal]

/-- A concrete builder: terminal `T0`, shared sum `T0 + T0` (reference count
2), root `(T0 + T0) * (T0 + T0)`. -/
def tC1 : SExpr := .tensor 0 [[2], [2]]

def eC1 : SExpr := .add tC1 tC1

def bC1 : KBuilder :=
  { topo := [tC1, eC1, .mul eC1 eC1]
    ref := fun x => if x = tC1 then 2 else if x = eC1 then 2 else 1
    temps := [(tC1, "T0")]
    assemblyTargets := ["T0"]
    coeffVecs := []
    expression := .mul eC1 eC1
    needsCellFacets := false }

theorem aux_temp_rule_witness :
    assignedAuxTemp bC1 eC1 = true ∧ evalSites eC1 (emittedStmts bC1) = 1 :=
  (aux_temp_rule bC1 (by decide) (by decide) (by decide) (by decide)).2
    eC1 (by decide) (by decide) (by decide)

/-- The lowered root expression and its ghost log, as computed by
`generate_kernel_ast` line 270 (`slate_to_cpp(slate_expr, declared_temps)`);
a dummy value when compilation failed. -/
def rootCode (b : KBuilder) : CCode × List SExpr :=
  match auxResult b with
  | .ok (_, temps3) =>
    match slateToCpp temps3 b.expression with
    | .ok (code, lg) => (code, lg)
    | .error _ => (.temp "", [])
  | .error _ => (.temp "", [])

/-- C8: The final statement of the emitted kernel body is the `ast.Incr`
(line 271, `+=`, i.e. accumulating, not overwriting) of the lowered root
expression into the output buffer; `Stmt.resultIncr` models exactly that
increment, and it is the only statement form writing the output. -/
theorem final_stmt_incr (b : KBuilder) (hok : (generateKernel b).isOk = true) :
    (emittedStmts b).getLast? = some (Stmt.resultIncr (rootCode b).1 (rootCode b).2) := by
  obtain ⟨auxStmts, temps3, code, lg, ha, hc, hemit⟩ := generateKernel_decomp b hok
  have hroot : rootCode b = (code, lg) := by
    simp [rootCode, ha, hc]
  rw [hemit, hroot]
  rw [List.getLast?_append_of_ne_nil _ (by simp)]
  rfl

theorem final_stmt_incr_witness :
    (emittedStmts bC1).getLast?
      = some (Stmt.resultIncr (rootCode bC1).1 (rootCode bC1).2) :=
  final_stmt_incr bC1 (by decide)

theorem nrbw_append : ∀ (xs ys : List Stmt) (w : List String),
    nrbw (xs ++ ys) w = (nrbw xs w && nrbw ys (w ++ xs.flatMap stmtWrites)) := by
  intro xs
  induction xs with
  | nil => intro ys w; simp [nrbw]
  | cons x rest ih =>
    intro ys w
    simp only [List.cons_append, nrbw, List.flatMap_cons, List.append_eq, ih,
      ← List.append_assoc, Bool.and_assoc]

theorem nrbw_of_no_reads : ∀ (stmts : List Stmt) (w : List String),
    (∀ s ∈ stmts, stmtReads s = []) → nrbw stmts w = true := by
  intro stmts
  induction stmts with
  | nil => intro w h; rfl
  | cons s rest ih =>
    intro w h
    simp only [nrbw, h s (by simp), List.all_nil, Bool.true_and]
    exact ih _ fun s' hs' => h s' (by simp [hs'])

theorem nrbw_assembly : ∀ (targets : List String) (w : List String),
    (∀ t ∈ targets, t ∈ w) → nrbw (targets.map Stmt.assemblyCall) w = true := by
  intro targets
  induction targets with
  | nil => intro w h; rfl
  | cons t rest ih =>
    intro w h
    simp only [List.map_cons, nrbw, stmtReads, stmtWrites, List.all_cons, List.all_nil,
      Bool.and_true, Bool.and_eq_true, decide_eq_true_eq]
    refine ⟨h t (by simp), ih _ ?_⟩
    intro u hu
    exact List.mem_append_left _ (h u (by simp [hu]))

theorem terminal_writes (b : KBuilder) :
    (terminalStmtsOf b).flatMap stmtWrites = b.temps.map Prod.snd := by
  simp only [terminalStmtsOf, List.flatMap_cons, stmtWrites, List.nil_append]
  induction b.temps with
  | nil => rfl
  | cons p rest ih => simp [stmtWrites, ih]

theorem coeffGroup_reads : ∀ (cinfos : List CoeffInfo) (decls : List Stmt)
    (asgns : List CAssign) (temps : List (SExpr × String)),
    (∀ s ∈ decls, stmtReads s = []) →
    ∀ s ∈ (coeffGroup cinfos decls asgns temps).1, stmtReads s = [] := by
  intro cinfos
  induction cinfos with
  | nil => intro decls asgns temps hd s hs; exact hd s hs
  | cons ci rest ih =>
    intro decls asgns temps hd s hs
    simp only [coeffGroup] at hs
    split at hs
    · exact ih _ _ _ hd s hs
    · refine ih _ _ _ ?_ s hs
      intro s' hs'
      rcases List.mem_append.mp hs' with hs' | hs'
      · exact hd s' hs'
      · simp at hs'
        rw [hs']
        rfl

theorem coefficientTempsAux_reads : ∀ (vecs : List (Nat × List CoeffInfo))
    (temps : List (SExpr × String)),
    (∀ s ∈ (coefficientTempsAux vecs temps).1, stmtReads s = [])
    ∧ (∀ s ∈ (coefficientTempsAux vecs temps).2.1, stmtReads s = []) := by
  intro vecs
  induction vecs with
  | nil => intro temps; constructor <;> (intro s hs; simp [coefficientTempsAux] at hs)
  | cons g rest ih =>
    obtain ⟨dofs, cinfos⟩ := g
    intro temps
    simp only [coefficientTempsAux]
    constructor
    · intro s hs
      rcases List.mem_append.mp hs with hs | hs
      · exact coeffGroup_reads cinfos [] [] temps (by intro s' hs'; simp at hs') s hs
      · exact (ih _).1 s hs
    · intro s hs
      rcases List.mem_cons.mp hs with hs | hs
      · rw [hs]; rfl
      · exact (ih _).2 s hs

theorem coeffPart_reads (b : KBuilder) : ∀ s ∈ (coeffPart b).1, stmtReads s = [] := by
  intro s hs
  simp only [coeffPart] at hs
  split at hs
  · simp at hs
  · simp only [coefficientTemps] at hs
    rcases List.mem_cons.mp hs with hs | hs
    · rw [hs]; rfl
    · rcases List.mem_append.mp hs with hs | hs
      · exact (coefficientTempsAux_reads b.coeffVecs b.temps).1 s hs
      · rcases List.mem_cons.mp hs with hs | hs
        · rw [hs]; rfl
        · exact (coefficientTempsAux_reads b.coeffVecs b.temps).2 s hs

theorem coeffGroup_targets : ∀ (cinfos : List CoeffInfo) (decls : List Stmt)
    (asgns : List CAssign) (temps : List (SExpr × String)),
    (coeffGroup cinfos decls asgns temps).2.1.map CAssign.target
      = asgns.map CAssign.target ++ cinfos.map CoeffInfo.localTemp := by
  intro cinfos
  induction cinfos with
  | nil => intro decls asgns temps; simp [coeffGroup]
  | cons ci rest ih =>
    intro decls asgns temps
    simp only [coeffGroup]
    split <;> (rw [ih]; simp)

theorem coeffGroup_values : ∀ (cinfos : List CoeffInfo) (decls : List Stmt)
    (asgns : List CAssign) (temps : List (SExpr × String)),
    ∀ v ∈ (coeffGroup cinfos decls asgns temps).2.2.map Prod.snd,
      v ∈ temps.map Prod.snd ∨ v ∈ cinfos.map CoeffInfo.localTemp := by
  intro cinfos
  induction cinfos with
  | nil => intro decls asgns temps v hv; exact Or.inl (by simpa [coeffGroup] using hv)
  | cons ci rest ih =>
    intro decls asgns temps v hv
    simp only [coeffGroup] at hv
    split at hv
    · rcases ih _ _ _ v hv with h | h
      · exact Or.inl h
      · exact Or.inr (by simp [h])
    · rcases ih _ _ _ v hv with h | h
      · simp only [List.map_cons, List.mem_cons] at h
        rcases h with h | h
        · exact Or.inr (by simp [h])
        · exact Or.inl h
      · exact Or.inr (by simp [h])

theorem coefficientTempsAux_values : ∀ (vecs : List (Nat × List CoeffInfo))
    (temps : List (SExpr × String)),
    ∀ v ∈ (coefficientTempsAux vecs temps).2.2.map Prod.snd,
      v ∈ temps.map Prod.snd
        ∨ v ∈ (coefficientTempsAux vecs temps).2.1.flatMap stmtWrites := by
  intro vecs
  induction vecs with
  | nil => intro temps v hv; exact Or.inl (by simpa [coefficientTempsAux] using hv)
  | cons g rest ih =>
    obtain ⟨dofs, cinfos⟩ := g
    intro temps v hv
    simp only [coefficientTempsAux] at hv ⊢
    rcases ih _ v hv with h | h
    · rcases coeffGroup_values cinfos [] [] temps v h with h | h
      · exact Or.inl h
      · refine Or.inr ?_
        rw [List.mem_flatMap]
        refine ⟨Stmt.forLoop dofs (.assigns (coeffGroup cinfos [] [] temps).2.1), by simp, ?_⟩
        simp only [stmtWrites]
        rw [coeffGroup_targets]
        simpa using h
    · refine Or.inr ?_
      rw [List.mem_flatMap] at h ⊢
      obtain ⟨s, hs, hv'⟩ := h
      exact ⟨s, by simp [hs], hv'⟩

theorem coeffPart_values (b : KBuilder) :
    ∀ v ∈ (coeffPart b).2.map Prod.snd,
      v ∈ b.temps.map Prod.snd ∨ v ∈ (coeffPart b).1.flatMap stmtWrites := by
  intro v hv
  simp only [coeffPart] at hv ⊢
  split at hv
  · rename_i hh
    simp only [hh]
    exact Or.inl hv
  · rename_i hh
    simp only [hh, if_neg]
    simp only [coefficientTemps] at hv ⊢
    rcases coefficientTempsAux_values b.coeffVecs b.temps v hv with h | h
    · exact Or.inl h
    · refine Or.inr ?_
      rw [List.mem_flatMap] at h ⊢
      obtain ⟨s, hs, hv'⟩ := h
      exact ⟨s, by simp [hs], hv'⟩

/-- The `auxiliary_expressions` statements only read temporaries that were
already written (given that every declared temporary entering the stage has
been written), and every declared temporary leaving the stage has been
written. -/
theorem auxLoop_nrbw : ∀ (l : List SExpr) (temps : List (SExpr × String))
    (stmts : List Stmt) (temps' : List (SExpr × String)) (w : List String),
    auxLoop l temps = .ok (stmts, temps') →
    (∀ v ∈ temps.map Prod.snd, v ∈ w) →
    nrbw stmts w = true
    ∧ ∀ v ∈ temps'.map Prod.snd, v ∈ w ++ stmts.flatMap stmtWrites := by
  intro l
  induction l with
  | nil =>
    intro temps stmts temps' w h hw
    simp only [auxLoop, Except.ok.injEq, Prod.mk.injEq] at h
    obtain ⟨h1, h2⟩ := h
    rw [← h1, ← h2]
    exact ⟨rfl, fun v hv => by simpa using hw v hv⟩
  | cons e0 rest ih =>
    intro temps stmts temps' w h hw
    simp only [auxLoop] at h
    split at h
    · exact ih temps stmts temps' w h hw
    · rename_i he0
      split at h
      · rename_i op dec
        split at h
        · rename_i c lg hcpp
          split at h
          · rename_i stmts2 temps2 hrec
            simp only [Except.ok.injEq, Prod.mk.injEq] at h
            obtain ⟨h1, h2⟩ := h
            have hreads : ∀ r ∈ c.refs, r ∈ w := fun r hr =>
              hw r (slateToCpp_refs temps op c lg hcpp r hr)
            have hw2 : ∀ v ∈ ((SExpr.factorization op dec,
                "dec" ++ toString temps.length) :: temps).map Prod.snd,
                v ∈ w ++ ["dec" ++ toString temps.length] := by
              intro v hv
              simp only [List.map_cons, List.mem_cons] at hv
              rcases hv with hv | hv
              · simp [hv]
              · exact List.mem_append_left _ (hw v hv)
            obtain ⟨ihn, ihv⟩ := ih _ stmts2 temps2 _ hrec hw2
            constructor
            · rw [← h1]
              simp only [nrbw, stmtReads, stmtWrites, List.all_eq_true,
                decide_eq_true_eq, Bool.and_eq_true]
              exact ⟨hreads, ihn⟩
            · intro v hv
              rw [← h2] at hv
              have := ihv v hv
              rw [← h1]
              simp only [List.flatMap_cons, stmtWrites]
              simp only [List.mem_append, List.mem_singleton] at this ⊢
              tauto
          · simp at h
        · simp at h
      · split at h
        · rename_i c lg hcpp
          split at h
          · rename_i stmts2 temps2 hrec
            simp only [Except.ok.injEq, Prod.mk.injEq] at h
            obtain ⟨h1, h2⟩ := h
            have hreads : ∀ r ∈ c.refs, r ∈ w := fun r hr =>
              hw r (slateToCpp_refs temps e0 c lg hcpp r hr)
            have hw2 : ∀ v ∈ ((e0, "auxT" ++ toString temps.length) :: temps).map Prod.snd,
                v ∈ (w ++ []) ++ ["auxT" ++ toString temps.length] := by
              intro v hv
              simp only [List.map_cons, List.mem_cons] at hv
              rcases hv with hv | hv
              · simp [hv]
              · simp [hw v hv]
            obtain ⟨ihn, ihv⟩ := ih _ stmts2 temps2 _ hrec hw2
            constructor
            · rw [← h1]
              simp only [nrbw, stmtReads, stmtWrites, List.all_eq_true,
                decide_eq_true_eq, Bool.and_eq_true, List.all_nil, Bool.true_and]
              refine ⟨?_, ihn⟩
              intro r hr
              simp [hreads r hr]
            · intro v hv
              rw [← h2] at hv
              have := ihv v hv
              rw [← h1]
              simp only [List.flatMap_cons, stmtWrites]
              simp only [List.mem_append, List.mem_singleton, List.not_mem_nil] at this ⊢
              tauto
          · simp at h
        · simp at h

theorem terminalStmts_reads (b : KBuilder) :
    ∀ s ∈ terminalStmtsOf b, stmtReads s = [] := by
  intro s hs
  simp only [terminalStmtsOf] at hs
  rcases List.mem_cons.mp hs with hs | hs
  · rw [hs]; rfl
  · rw [List.mem_flatMap] at hs
    obtain ⟨p, -, hp⟩ := hs
    simp at hp
    rcases hp with hp | hp <;> (rw [hp]; rfl)

/-- C7: Every terminal temporary is declared and zero-filled at the head of
the emitted statement sequence, before any assembly call or other statement
touches it; and scanning the whole emitted sequence, no statement reads a
temporary before an earlier statement has written it (`nrbw` with an empty
initial write set). -/
theorem temps_written_before_read (b : KBuilder)
    (hok : (generateKernel b).isOk = true)
    (hasm : ∀ t ∈ b.assemblyTargets, t ∈ b.temps.map Prod.snd) :
    ((if b.needsCellFacets then [Stmt.flat "/* facet cast */"] else [])
        ++ terminalStmtsOf b) <+: emittedStmts b
    ∧ nrbw (emittedStmts b) [] = true := by
  obtain ⟨auxStmts, temps3, code, lg, ha, hc, hemit⟩ := generateKernel_decomp b hok
  constructor
  · have hre : emittedStmts b =
        ((if b.needsCellFacets then [Stmt.flat "/* facet cast */"] else [])
          ++ terminalStmtsOf b)
        ++ (assemblyStmtsOf b ++ ((coeffPart b).1 ++ (auxStmts
            ++ [Stmt.flat "/* Map eigen tensor into C struct */",
                Stmt.flat "/* eigen map of output */",
                Stmt.flat "/* Linear algebra expression */",
                Stmt.resultIncr code lg]))) := by
      rw [hemit]
      simp [List.append_assoc]
    rw [hre]
    exact List.prefix_append _ _
  · rw [hemit]
    rw [nrbw_append, nrbw_append, nrbw_append, nrbw_append, nrbw_append]
    simp only [Bool.and_eq_true]
    have hS1 : nrbw (if b.needsCellFacets then [Stmt.flat "/* facet cast */"] else [])
        [] = true := by
      split <;> rfl
    have hS2 : ∀ w, nrbw (terminalStmtsOf b) w = true :=
      fun w => nrbw_of_no_reads _ w (terminalStmts_reads b)
    have hS4 : ∀ w, nrbw (coeffPart b).1 w = true :=
      fun w => nrbw_of_no_reads _ w (coeffPart_reads b)
    -- names written after the terminal block, for any larger write set
    have htermmem : ∀ t ∈ b.temps.map Prod.snd,
        t ∈ (terminalStmtsOf b).flatMap stmtWrites := by
      intro t ht
      rw [terminal_writes]
      exact ht
    refine ⟨⟨⟨⟨⟨hS1, hS2 _⟩, ?_⟩, hS4 _⟩, ?_⟩, ?_⟩
    · -- assembly block
      simp only [assemblyStmtsOf, nrbw, stmtReads, stmtWrites, List.all_nil,
        Bool.true_and, List.append_nil]
      apply nrbw_assembly
      intro t ht
      have := htermmem t (hasm t ht)
      simp only [List.flatMap_append, List.nil_append, List.mem_append]
      tauto
    · -- auxiliary block
      refine (auxLoop_nrbw _ _ auxStmts temps3 _ ha ?_).1
      intro v hv
      rcases coeffPart_values b v hv with h | h
      · have := htermmem v h
        simp only [List.flatMap_append, List.nil_append, List.mem_append]
        tauto
      · simp only [List.flatMap_append, List.nil_append, List.mem_append]
        tauto
    · -- final block
      have hvals := (auxLoop_nrbw _ _ auxStmts temps3
          ([] ++ ((if b.needsCellFacets then [Stmt.flat "/* facet cast */"] else [])
            ++ terminalStmtsOf b ++ assemblyStmtsOf b ++ (coeffPart b).1).flatMap stmtWrites)
          ha ?_).2
      · simp only [nrbw, stmtReads, stmtWrites, List.all_nil, Bool.true_and,
          List.append_nil, List.all_eq_true, decide_eq_true_eq, Bool.and_eq_true]
        refine ⟨?_, trivial⟩
        intro r hr
        have hr3 := slateToCpp_refs temps3 b.expression code lg hc r hr
        have := hvals r hr3
        simp only [List.flatMap_append, List.nil_append, List.mem_append] at this ⊢
        tauto
      · intro v hv
        rcases coeffPart_values b v hv with h | h
        · have := htermmem v h
          simp only [List.flatMap_append, List.nil_append, List.mem_append]
          tauto
        · simp only [List.flatMap_append, List.nil_append, List.mem_append]
          tauto

theorem temps_written_before_read_witness :
    ((if bC1.needsCellFacets then [Stmt.flat "/* facet cast */"] else [])
        ++ terminalStmtsOf bC1) <+: emittedStmts bC1
    ∧ nrbw (emittedStmts bC1) [] = true :=
  temps_written_before_read bC1 (by decide) (by decide)

/-- Kernel argument roles. -/
inductive KArg where
  | output
  | coords
  | orientations
  | coefficient (i : Nat)
  | facets
  | layer
  | cellSizes
  | tempVar (i : Nat)
deriving DecidableEq

/-- The macro-kernel argument list assembled by `generate_kernel_ast`
(lines 273-314): output and coordinates first, then orientations if needed,
then the per-coefficient buffers, then the facet-marker argument if needed,
then the mesh-layer argument if needed, and then the cell-size argument if
needed — the cell sizes are appended at lines 310-314, i.e. AFTER the mesh
layers of lines 305-308, although the NOTE there says mesh layers are added
as the final argument. -/
def kernelArgs (oriented facets layers sizes : Bool) (ncoeff : Nat) : List KArg :=
  [.output, .coords]
    ++ (if oriented then [.orientations] else [])
    ++ ((List.range ncoeff).map KArg.coefficient)
    ++ (if facets then [.facets] else [])
    ++ (if layers then [.layer] else [])
    ++ (if sizes then [.cellSizes] else [])

/-- The outer-loopy argument list assembled by `gem_to_loopy`
(lines 628-710): the tensor temporaries, then output, coordinates,
orientations if needed, cell sizes if needed, the coefficient buffers, the
facet-marker argument if needed, and the layer variable if needed. -/
def gemToLoopyArgs (ntemps : Nat) (oriented sizes : Bool) (ncoeff : Nat)
    (facets layers : Bool) : List KArg :=
  ((List.range ntemps).map KArg.tempVar)
    ++ [.output, .coords]
    ++ (if oriented then [.orientations] else [])
    ++ (if sizes then [.cellSizes] else [])
    ++ ((List.range ncoeff).map KArg.coefficient)
    ++ (if facets then [.facets] else [])
    ++ (if layers then [.layer] else [])

/-- C2 (refutation by evaluation): when both the mesh-layer and the
cell-size arguments are needed, `generate_kernel_ast` emits the cell-size
buffer after the layer index, so the layer is not the last argument — against
the claim and the code's own NOTE; `gem_to_loopy` moreover places the
cell-size buffer before the coefficient buffers, against the claimed relative
order. -/
theorem kernelArgs_layer_not_last :
    kernelArgs false false true true 0 = [.output, .coords, .layer, .cellSizes]
    ∧ (kernelArgs false false true true 0).getLast? = some KArg.cellSizes
    ∧ (kernelArgs false false true true 0).getLast? ≠ some KArg.layer
    ∧ gemToLoopyArgs 0 false true 1 false false
        = [.output, .coords, .cellSizes, .coefficient 0] := by
  refine ⟨by decide, by decide, by decide, by decide⟩

theorem coeffGroup_asgns : ∀ (cinfos : List CoeffInfo) (decls : List Stmt)
    (asgns : List CAssign) (temps : List (SExpr × String)),
    (coeffGroup cinfos decls asgns temps).2.1
      = asgns ++ cinfos.map fun ci =>
          (⟨ci.localTemp, .addI (.const ci.offsetIndex) .jVar, ci.src, [Idx.jVar]⟩ : CAssign) := by
  intro cinfos
  induction cinfos with
  | nil => intro decls asgns temps; simp [coeffGroup]
  | cons ci rest ih =>
    intro decls asgns temps
    simp only [coeffGroup]
    split <;> (rw [ih]; simp)

theorem coefficientTempsAux_loops : ∀ (vecs : List (Nat × List CoeffInfo))
    (temps : List (SExpr × String)),
    (coefficientTempsAux vecs temps).2.1
      = vecs.map fun g => Stmt.forLoop g.1 (LoopBody.assigns (g.2.map fun ci =>
          ⟨ci.localTemp, .addI (.const ci.offsetIndex) .jVar, ci.src, [Idx.jVar]⟩)) := by
  intro vecs
  induction vecs with
  | nil => intro temps; rfl
  | cons g rest ih =>
    obtain ⟨dofs, cinfos⟩ := g
    intro temps
    simp only [coefficientTempsAux, List.map_cons]
    rw [ih, coeffGroup_asgns]
    simp

/-- C3 (counterexample): for a vector coefficient grouped under DOF extent 6
(node extent 2, DOF extent 3), the generator emits exactly one single,
non-nested loop over the group extent assigning `VT0[0 + j1] = w_0[j1]` —
not the claimed double-nested loop writing
`VT0[offset + dof_extent*i + j] = w_0[i][j]`: no emitted statement is a
nested loop, and no source is indexed by two loop indices. -/
theorem coefficient_loop_not_nested :
    (coefficientTemps [(6, [⟨0, 0, [2, 3], .assembledVector 0 [[6]], "VT0", "w_0"⟩])] []).1
      = [Stmt.flat "/* Coefficient temporaries */",
         Stmt.decl "VT0",
         Stmt.flat "/* Loops for coefficient temps */",
         Stmt.forLoop 6 (LoopBody.assigns
           [⟨"VT0", .addI (.const 0) .jVar, "w_0", [Idx.jVar]⟩])]
    ∧ ∀ s ∈ (coefficientTemps
        [(6, [⟨0, 0, [2, 3], .assembledVector 0 [[6]], "VT0", "w_0"⟩])] []).1,
        (match s with
         | Stmt.forLoop _ (LoopBody.nested _ _) => true
         | Stmt.forLoop _ (LoopBody.assigns l) =>
             l.any fun ca => decide (Idx.iVar ∈ ca.srcIdx)
         | _ => false) = false := by
  refine ⟨by decide, by decide⟩

/-- C3 (amended): components grouped under one `coefficient_vecs` key are
initialized together by ONE single (non-nested) loop per group over the
group's shared DOF extent, containing, for every grouped component, the
assignment `temp[offsetIndex + j1] = source[j1]`; all coefficient-temporary
declarations precede all loops. -/
theorem coefficient_loop_emission (vecs : List (Nat × List CoeffInfo))
    (temps : List (SExpr × String)) :
    (coefficientTemps vecs temps).1
      = Stmt.flat "/* Coefficient temporaries */" :: (coefficientTempsAux vecs temps).1
          ++ Stmt.flat "/* Loops for coefficient temps */"
            :: vecs.map (fun g => Stmt.forLoop g.1 (LoopBody.assigns (g.2.map fun ci =>
                ⟨ci.localTemp, .addI (.const ci.offsetIndex) .jVar, ci.src, [Idx.jVar]⟩)))
    ∧ ∀ s ∈ (coefficientTempsAux vecs temps).1, ∃ t, s = Stmt.decl t := by
  constructor
  · simp only [coefficientTemps]
    rw [coefficientTempsAux_loops]
  · have hgroup : ∀ (cinfos : List CoeffInfo) (decls : List Stmt)
        (asgns : List CAssign) (ts : List (SExpr × String)),
        (∀ s ∈ decls, ∃ t, s = Stmt.decl t) →
        ∀ s ∈ (coeffGroup cinfos decls asgns ts).1, ∃ t, s = Stmt.decl t := by
      intro cinfos
      induction cinfos with
      | nil => intro decls asgns ts hd s hs; exact hd s hs
      | cons ci crest cih =>
        intro decls asgns ts hd s hs
        simp only [coeffGroup] at hs
        split at hs
        · exact cih _ _ _ hd s hs
        · refine cih _ _ _ ?_ s hs
          intro s' hs'
          rcases List.mem_append.mp hs' with hs' | hs'
          · exact hd s' hs'
          · simp at hs'
            exact ⟨ci.localTemp, hs'⟩
    intro s hs
    induction vecs generalizing temps with
    | nil => simp [coefficientTempsAux] at hs
    | cons g rest ih =>
      obtain ⟨dofs, cinfos⟩ := g
      simp only [coefficientTempsAux] at hs
      rcases List.mem_append.mp hs with hs | hs
      · exact hgroup cinfos [] [] temps (by intro s' hs'; simp at hs') s hs
      · exact ih _ hs

/-- One statement inside a facet branch of `tensor_assembly_calls`: either a
plain assembly call or a subdomain-guarded block
(`If(cell_facets[it][1] == sd, calls)`, line 513). -/
inductive FacetStmt where
  | call (c : String)
  | ifSub (sd : Int) (calls : List String)
deriving DecidableEq

/-- The contents of the interior (resp. exterior) branch: the plain facet
calls collected at lines 499-504, followed by the subdomain-guarded blocks
appended at lines 509-519. -/
def facetBranch (base : List String) (sds : List (Int × List String)) : List FacetStmt :=
  base.map FacetStmt.call ++ sds.map fun p => FacetStmt.ifSub p.1 p.2

/-- The facet-loop body (lines 528-540): `If(cell_facets[it][0] == 0, ext)`
when any exterior calls exist, then `If(cell_facets[it][0] == 1, int)` when
any interior calls exist; the pair `(v, stmts)` stands for the `If` testing
column 0 against `v`. -/
def facetLoopBody (extB intB : List FacetStmt) : List (Int × List FacetStmt) :=
  (if extB.isEmpty then [] else [((0 : Int), extB)])
    ++ (if intB.isEmpty then [] else [((1 : Int), intB)])

/-- Running the statements of one branch at a facet whose marker row has
second column `col1`: a subdomain-guarded block runs only when its id equals
`col1`. -/
def execFacetStmts (col1 : Int) (stmts : List FacetStmt) : List String :=
  stmts.flatMap fun s =>
    match s with
    | .call c => [c]
    | .ifSub sd calls => if sd = col1 then calls else []

/-- Running one iteration of the emitted facet loop at facet `f` against the
facet-marker buffer (one `(col0, col1)` row per facet). -/
def runFacetIter (marker : List (Int × Int)) (extB intB : List FacetStmt)
    (f : Nat) : List String :=
  (facetLoopBody extB intB).flatMap fun p =>
    if p.1 = (marker.getD f (0, 0)).1 then execFacetStmts (marker.getD f (0, 0)).2 p.2
    else []

theorem execFacetStmts_branch (col1 : Int) (base : List String)
    (sds : List (Int × List String)) :
    execFacetStmts col1 (facetBranch base sds)
      = base ++ sds.flatMap fun p => if p.1 = col1 then p.2 else [] := by
  simp only [facetBranch, execFacetStmts, List.flatMap_append, List.flatMap_map]
  congr 1
  induction base with
  | nil => rfl
  | cons c rest ih => simp [ih]

/-- C4: on each facet-loop iteration the dispatch tests column 0 of the
facet's marker row: value `1` runs the interior-facet calls, value `0` the
exterior-facet calls, and within a branch each subdomain-restricted block is
additionally guarded by an equality test of column 1 against its subdomain
id. -/
theorem facet_dispatch (marker : List (Int × Int)) (extBase intBase : List String)
    (sdExt sdInt : List (Int × List String)) (f : Nat) (c1 : Int) :
    (marker.getD f (0, 0) = (1, c1) →
      runFacetIter marker (facetBranch extBase sdExt) (facetBranch intBase sdInt) f
        = intBase ++ sdInt.flatMap fun p => if p.1 = c1 then p.2 else [])
    ∧ (marker.getD f (0, 0) = (0, c1) →
      runFacetIter marker (facetBranch extBase sdExt) (facetBranch intBase sdInt) f
        = extBase ++ sdExt.flatMap fun p => if p.1 = c1 then p.2 else []) := by
  constructor
  · intro hm
    simp only [runFacetIter, facetLoopBody, hm, List.flatMap_append]
    have hext : (if (facetBranch extBase sdExt).isEmpty then ([] : List (Int × List FacetStmt))
        else [((0 : Int), facetBranch extBase sdExt)]).flatMap
          (fun p => if p.1 = (1, c1).1 then execFacetStmts (1, c1).2 p.2 else []) = [] := by
      split <;> simp
    rw [hext]
    cases hint : (facetBranch intBase sdInt).isEmpty with
    | true =>
      simp only [facetBranch, List.isEmpty_iff, List.append_eq_nil, List.map_eq_nil_iff] at hint
      obtain ⟨h1, h2⟩ := hint
      simp [h1, h2, facetBranch]
    | false =>
      simp [execFacetStmts_branch]
  · intro hm
    simp only [runFacetIter, facetLoopBody, hm, List.flatMap_append]
    have hint : (if (facetBranch intBase sdInt).isEmpty then ([] : List (Int × List FacetStmt))
        else [((1 : Int), facetBranch intBase sdInt)]).flatMap
          (fun p => if p.1 = (0, c1).1 then execFacetStmts (0, c1).2 p.2 else []) = [] := by
      split <;> simp
    rw [hint]
    cases hext : (facetBranch extBase sdExt).isEmpty with
    | true =>
      simp only [facetBranch, List.isEmpty_iff, List.append_eq_nil, List.map_eq_nil_iff] at hext
      obtain ⟨h1, h2⟩ := hext
      simp [h1, h2, facetBranch]
    | false =>
      simp [execFacetStmts_branch]

/-- C4 witness: the spec's example buffer `[[1,0],[0,0],[1,2]]`: facets 0 and
2 dispatch to interior calls (facet 2 additionally running the block gated on
subdomain id 2), facet 1 dispatches to exterior calls. -/
theorem facet_dispatch_witness :
    runFacetIter [(1, 0), (0, 0), (1, 2)]
        (facetBranch ["ext0"] []) (facetBranch ["int0"] [(2, ["int_sd2"])]) 0
      = ["int0"]
    ∧ runFacetIter [(1, 0), (0, 0), (1, 2)]
        (facetBranch ["ext0"] []) (facetBranch ["int0"] [(2, ["int_sd2"])]) 1
      = ["ext0"]
    ∧ runFacetIter [(1, 0), (0, 0), (1, 2)]
        (facetBranch ["ext0"] []) (facetBranch ["int0"] [(2, ["int_sd2"])]) 2
      = ["int0", "int_sd2"] := by
  refine ⟨?_, ?_, ?_⟩
  · rw [(facet_dispatch [(1, 0), (0, 0), (1, 2)] ["ext0"] ["int0"] []
      [(2, ["int_sd2"])] 0 0).1 (by decide)]
    decide
  · rw [(facet_dispatch [(1, 0), (0, 0), (1, 2)] ["ext0"] ["int0"] []
      [(2, ["int_sd2"])] 1 0).2 (by decide)]
    decide
  · rw [(facet_dispatch [(1, 0), (0, 0), (1, 2)] ["ext0"] ["int0"] []
      [(2, ["int_sd2"])] 2 2).1 (by decide)]
    decide

/-- The mesh-level conditional of `tensor_assembly_calls` (lines 570-583):
`If(layer == 0, bottom, If(layer == num_layers - 1, top, rest))` with
`bottom = int_top ++ ext_btm`, `top = int_btm ++ ext_top`,
`rest = int_btm ++ int_top`. -/
def layerDispatch (numLayers : Nat) (intTop intBtm extTop extBtm : List String)
    (layer : Nat) : List String :=
  if layer = 0 then intTop ++ extBtm
  else if layer = numLayers - 1 then intBtm ++ extTop
  else intBtm ++ intTop

/-- C5 counterexample: with a single cell layer (`num_layers = 1`) the top
layer index `num_layers - 1 = 0` takes the bottom branch, so it does not
select only the top-specific calls as the claim requires. -/
theorem layer_dispatch_single_layer :
    layerDispatch 1 ["it"] ["ib"] ["et"] ["eb"] (1 - 1) = ["it", "eb"]
    ∧ layerDispatch 1 ["it"] ["ib"] ["et"] ["eb"] (1 - 1) ≠ ["ib", "et"] := by
  refine ⟨by decide, by decide⟩

/-- C5 (amended with `2 ≤ num_layers`, forced by the single-layer
counterexample where layer 0 and layer `num_layers - 1` coincide): layer 0
selects only the bottom-specific calls (interior-horizontal-top plus
exterior-bottom), layer `num_layers - 1` selects only the top-specific calls
(interior-horizontal-bottom plus exterior-top), and every layer strictly
between selects both interior-horizontal call sets and no exterior calls. -/
theorem layer_dispatch_rule (numLayers : Nat)
    (intTop intBtm extTop extBtm : List String) (h2 : 2 ≤ numLayers) :
    layerDispatch numLayers intTop intBtm extTop extBtm 0 = intTop ++ extBtm
    ∧ layerDispatch numLayers intTop intBtm extTop extBtm (numLayers - 1)
        = intBtm ++ extTop
    ∧ ∀ layer, 0 < layer → layer < numLayers - 1 →
        layerDispatch numLayers intTop intBtm extTop extBtm layer
          = intBtm ++ intTop := by
  unfold layerDispatch
  refine ⟨by simp, ?_, ?_⟩
  · rw [if_neg (by omega), if_pos rfl]
  · intro layer h1 hl
    rw [if_neg (by omega), if_neg (by omega)]

/-- C5 witness: the spec's `num_layers = 5` example at layers 0, 4 and 2. -/
theorem layer_dispatch_rule_witness :
    layerDispatch 5 ["it"] ["ib"] ["et"] ["eb"] 0 = ["it", "eb"]
    ∧ layerDispatch 5 ["it"] ["ib"] ["et"] ["eb"] 4 = ["ib", "et"]
    ∧ layerDispatch 5 ["it"] ["ib"] ["et"] ["eb"] 2 = ["ib", "it"] := by
  have h := layer_dispatch_rule 5 ["it"] ["ib"] ["et"] ["eb"] (by decide)
  exact ⟨h.1, h.2.1, h.2.2 2 (by decide) (by decide)⟩

theorem contiguous_range' : ∀ (k a : Nat), contiguousL (List.range' a k) = true
  | 0, _ => rfl
  | 1, _ => rfl
  | (k + 2), a => by
    have ih := contiguous_range' (k + 1) (a + 1)
    rw [List.range'_succ, List.range'_succ]
    rw [List.range'_succ] at ih
    simp only [contiguousL]
    rw [ih]
    simp

theorem foldl_min_const (l : List Nat) : ∀ (m : Nat), (∀ x ∈ l, m ≤ x) →
    l.foldl Nat.min m = m := by
  induction l with
  | nil => intro m _; rfl
  | cons x xs ih =>
    intro m h
    simp only [List.foldl_cons]
    rw [show Nat.min m x = m from Nat.min_eq_left (h x (by simp))]
    exact ih m fun y hy => h y (by simp [hy])

theorem minD_range' (k a : Nat) (hk : 0 < k) : minD (List.range' a k) = a := by
  cases k with
  | zero => omega
  | succ k' =>
    rw [List.range'_succ]
    simp only [minD]
    apply foldl_min_const
    intro x hx
    have := List.mem_range'_1.mp hx
    omega

theorem take_succ_sum : ∀ (l : List Nat) (a : Nat), a < l.length →
    (l.take (a + 1)).sum = (l.take a).sum + l.getD a 0 := by
  intro l
  induction l with
  | nil => intro a h; simp at h
  | cons x xs ih =>
    intro a h
    cases a with
    | zero => simp [List.getD]
    | succ a' =>
      simp only [List.take_succ_cons, List.sum_cons, List.getD_cons_succ]
      rw [ih a' (by simpa using h)]
      omega

theorem take_sum_range' : ∀ (k a : Nat) (l : List Nat), a + k ≤ l.length →
    (l.take a).sum + ((List.range' a k).map fun i => l.getD i 0).sum
      = (l.take (a + k)).sum := by
  intro k
  induction k with
  | zero => intro a l h; simp
  | succ k' ih =>
    intro a l h
    rw [List.range'_succ]
    simp only [List.map_cons, List.sum_cons]
    have hstep := take_succ_sum l a (by omega)
    have hrec := ih (a + 1) l (by omega)
    have harith : a + (k' + 1) = (a + 1) + k' := by omega
    rw [harith, ← hrec]
    omega

/-- C6: A `Block` whose row or column index ranges fail the contiguity test
makes `slate_to_cpp` raise (`NotImplementedError`, the spec's
`UnsupportedFeature` class) and lowering aborts; for contiguous ranges
`r0..r0+rk-1` × `c0..c0+ck-1` it emits the Eigen
`.block<rshape, cshape>(rstart, cstart)` extraction where each start offset
is the sum of the operand's prior block extents and each shape is the sum of
the selected extents, and the extracted window ends exactly at the sum of
the extents up to the last selected block — so entry `(i, j)` of the block
is entry `(rstart + i, cstart + j)` of the full operand, matching direct
indexing. -/
theorem block_lowering (temps : List (SExpr × String)) (a : SExpr)
    (rids cids : List Nat)
    (hl : lookupT temps (SExpr.blockOf a [rids, cids]) = none) :
    ((contiguousL rids && contiguousL cids) = false →
      slateToCpp temps (.blockOf a [rids, cids]) = .error .nonContiguousBlock)
    ∧ ∀ (r0 rk c0 ck : Nat) (ca : CCode) (la : List SExpr), 0 < rk → 0 < ck →
        rids = List.range' r0 rk → cids = List.range' c0 ck →
        r0 + rk ≤ (a.axisShapes 0).length → c0 + ck ≤ (a.axisShapes 1).length →
        slateToCpp temps a = .ok (ca, la) →
        slateToCpp temps (.blockOf a [rids, cids])
          = .ok (.blockC ca
              ((rids.map fun i => (a.axisShapes 0).getD i 0).sum)
              ((cids.map fun i => (a.axisShapes 1).getD i 0).sum)
              (((a.axisShapes 0).take r0).sum)
              (((a.axisShapes 1).take c0).sum),
             SExpr.blockOf a [rids, cids] :: la)
        ∧ ((a.axisShapes 0).take r0).sum
              + (rids.map fun i => (a.axisShapes 0).getD i 0).sum
            = ((a.axisShapes 0).take (r0 + rk)).sum
        ∧ ((a.axisShapes 1).take c0).sum
              + (cids.map fun i => (a.axisShapes 1).getD i 0).sum
            = ((a.axisShapes 1).take (c0 + ck)).sum := by
  constructor
  · intro hcond
    simp [slateToCpp, hl, hcond]
  · intro r0 rk c0 ck ca la hrk hck hr hc hlen1 hlen2 hca
    subst hr
    subst hc
    have hcr := contiguous_range' rk r0
    have hcc := contiguous_range' ck c0
    refine ⟨?_, ?_, ?_⟩
    · simp [slateToCpp, hl, hcr, hcc, hca, minD_range' rk r0 hrk, minD_range' ck c0 hck]
    · exact take_sum_range' rk r0 _ hlen1
    · exact take_sum_range' ck c0 _ hlen2

/-- A block-structured terminal for the block-extraction witness: row
extents `[2, 3, 4]`, column extents `[5, 6]`. -/
def aC6 : SExpr := .tensor 6 [[2, 3, 4], [5, 6]]

/-- C6 witness: the contiguous block `rows {1,2} × cols {0,1}` of `aC6`
extracts the 7×11 sub-matrix at start offsets (2, 0), and the non-contiguous
block `rows {0,2}` raises. -/
theorem block_lowering_witness :
    slateToCpp [(aC6, "T0")] (.blockOf aC6 [[1, 2], [0, 1]])
      = .ok (.blockC (.temp "T0") 7 11 2 0,
             [SExpr.blockOf aC6 [[1, 2], [0, 1]]])
    ∧ slateToCpp [(aC6, "T0")] (.blockOf aC6 [[0, 2], [0, 1]])
      = .error .nonContiguousBlock := by
  constructor
  · have h := (block_lowering [(aC6, "T0")] aC6 [1, 2] [0, 1] (by decide)).2
      1 2 0 2 (.temp "T0") [] (by decide) (by decide) (by decide) (by decide)
      (by decide) (by decide) (slateToCpp_of_lookup _ _ _ (by decide))
    exact h.1
  · exact (block_lowering [(aC6, "T0")] aC6 [0, 2] [0, 1] (by decide)).1 (by decide)

/-- Lexicographic comparison of strings by character code. -/
def strLtB : List Char → List Char → Bool
  | [], [] => false
  | [], _ :: _ => true
  | _ :: _, [] => false
  | c :: cs, d :: ds =>
    if c.toNat < d.toNat then true
    else if d.toNat < c.toNat then false
    else strLtB cs ds

/-- Lexicographic order on parameter items, mirroring Python's tuple
comparison in `sorted(tsfc_parameters.items())`. -/
def pairLe (a b : String × String) : Bool :=
  strLtB a.1.toList b.1.toList
    || (a.1 == b.1 && !(strLtB b.2.toList a.2.toList))

def insertSorted (x : String × String) :
    List (String × String) → List (String × String)
  | [] => [x]
  | y :: ys => if pairLe x y then x :: y :: ys else y :: insertSorted x ys

/-- `str(sorted(tsfc_parameters.items()))` (lines 78 and 108): the canonical
sorted item list; the string serialization is injective on it, so the sorted
list itself stands for the string. -/
def sortItems (l : List (String × String)) : List (String × String) :=
  l.foldr insertSorted []

/-- The compiled artifact of `SlateKernel.__init__`: the COFFEE path's
kernel statements from `generate_kernel`, or the loopy path's product. -/
inductive SplitKernelU where
  | coffee (stmts : List Stmt)
  | loopy (name : String)
deriving DecidableEq

/-- Modelled from the spec: the expression-level metadata that
`compile_expression` and the two generators consume — the structural
content hash (`expr.expression_hash`, defined in `slate.py`, outside the
sources at hand), the mixedness flag (`slate_expr.is_mixed`), the number of
UFL domains, and the builder state driving the COFFEE pipeline. -/
structure SlateMeta where
  expressionHash : String
  isMixed : Bool
  numDomains : Nat
  builder : KBuilder

/-- `generate_kernel` (lines 190-231): the mixed and multi-domain
`NotImplementedError` checks run before the `LocalKernelBuilder` is
constructed; the Bool records whether the builder/pipeline stage was
reached. -/
def generateKernelM (e : SlateMeta) : Except SlacError SplitKernelU × Bool :=
  if e.isMixed then (.error .mixedNotImplemented, false)
  else if 1 < e.numDomains then (.error .multipleDomains, false)
  else
    (match generateKernel e.builder with
     | .ok stmts => .ok (.coffee stmts)
     | .error err => .error err, true)

/-- Modelled from the spec: the product of the loopy lowering pipeline
(stages 1-2c of `generate_loopy_kernel`; `kernel_builder.py` and `utils.py`
are outside the sources at hand).  The caching claims depend only on whether
the pipeline runs, so its product is an opaque tagged record. -/
def loopyPipeline (e : SlateMeta) : SplitKernelU :=
  .loopy ("slate_kernel_" ++ e.expressionHash)

/-- `generate_loopy_kernel` (lines 116-187): the same two
`NotImplementedError` checks run before anything else; the Bool records
whether the pipeline stage was reached. -/
def generateLoopyKernelM (e : SlateMeta) : Except SlacError SplitKernelU × Bool :=
  if e.isMixed then (.error .mixedNotImplemented, false)
  else if 1 < e.numDomains then (.error .multipleDomains, false)
  else (.ok (loopyPipeline e), true)

/-- `SlateKernel.__init__` (lines 80-87): dispatch on the `coffee` flag. -/
def slateKernelSplit (e : SlateMeta) (coffee : Bool) :
    Except SlacError SplitKernelU × Bool :=
  if coffee then generateKernelM e else generateLoopyKernelM e

/-- The per-expression `_metakernel_cache` of `compile_expression`, keyed by
the sorted parameter items (line 108). -/
structure MetaCache where
  entries : List (List (String × String) × SplitKernelU)
deriving DecidableEq

def lookupC : List (List (String × String) × SplitKernelU) →
    List (String × String) → Option SplitKernelU
  | [], _ => none
  | (k, v) :: rest, key => if k = key then some v else lookupC rest key

/-- `compile_expression` (lines 90-113): a cache hit returns the stored
kernel without constructing a `SlateKernel` (the Bool records whether the
pipeline stage ran — `false` on a hit); a miss builds the kernel and stores
it (`cache.setdefault(key, kernel)`); if building raises, the exception
propagates before `setdefault` runs, so the cache is unchanged. -/
def compileExpression (e : SlateMeta) (params : List (String × String))
    (coffee : Bool) (cache : MetaCache) :
    Except SlacError SplitKernelU × MetaCache × Bool :=
  match lookupC cache.entries (sortItems params) with
  | some k => (.ok k, cache, false)
  | none =>
    match slateKernelSplit e coffee with
    | (.ok k, ran) => (.ok k, ⟨(sortItems params, k) :: cache.entries⟩, ran)
    | (.error err, ran) => (.error err, cache, ran)

/-- `SlateKernel._cache_key` (lines 74-78):
`md5(expr.expression_hash + str(sorted(tsfc_parameters.items()))).hexdigest()`.
The md5 digest is modelled injectively by its input, i.e. by the pair of the
structural hash and the sorted items.  (The Python classmethod also returns
the domain communicator next to the digest; it selects the per-communicator
cache and carries no expression information.) -/
def slateCacheKey (e : SlateMeta) (params : List (String × String)) :
    String × List (String × String) :=
  (e.expressionHash, sortItems params)

/-- C9: compiling the same expression with the same parameters a second time
hits the per-expression cache: the same kernel is returned, the cache is
unchanged, and the Planner/Translator/Generator stage does not run; and the
`_cache_key` digest depends only on the expression's structural hash
together with the sorted parameter items. -/
theorem compile_cached (e : SlateMeta) (params : List (String × String))
    (coffee : Bool) (cache : MetaCache) (k : SplitKernelU) (st1 : MetaCache)
    (r1 : Bool)
    (h1 : compileExpression e params coffee cache = (.ok k, st1, r1)) :
    compileExpression e params coffee st1 = (.ok k, st1, false)
    ∧ ∀ (e2 : SlateMeta) (p2 : List (String × String)),
        e.expressionHash = e2.expressionHash → sortItems params = sortItems p2 →
        slateCacheKey e params = slateCacheKey e2 p2 := by
  constructor
  · have hlook : lookupC st1.entries (sortItems params) = some k := by
      simp only [compileExpression] at h1
      split at h1
      · rename_i k0 hk0
        simp only [Prod.mk.injEq, Except.ok.injEq] at h1
        obtain ⟨hka, hst, -⟩ := h1
        rw [← hst, ← hka]
        exact hk0
      · split at h1
        · rename_i k0 ran hk0
          simp only [Prod.mk.injEq, Except.ok.injEq] at h1
          obtain ⟨hka, hst, -⟩ := h1
          rw [← hst, ← hka]
          simp [lookupC]
        · simp at h1
    simp [compileExpression, hlook]
  · intro e2 p2 hh hp
    simp [slateCacheKey, hh, hp]

/-- A concrete compilable expression record over the `bC1` builder. -/
def eC9 : SlateMeta :=
  { expressionHash := "abc123", isMixed := false, numDomains := 1, builder := bC1 }

def pC9 : List (String × String) := [("mode", "spectral"), ("level", "2")]

instance instDecEqExcept {ε α : Type} [DecidableEq ε] [DecidableEq α] :
    DecidableEq (Except ε α) := fun x y =>
  match x, y with
  | .ok a, .ok b =>
    if h : a = b then isTrue (congrArg Except.ok h)
    else isFalse fun hc => h (Except.ok.inj hc)
  | .error a, .error b =>
    if h : a = b then isTrue (congrArg Except.error h)
    else isFalse fun hc => h (Except.error.inj hc)
  | .ok _, .error _ => isFalse fun hc => Except.noConfusion hc
  | .error _, .ok _ => isFalse fun hc => Except.noConfusion hc

def stC9 : MetaCache := (compileExpression eC9 pC9 true ⟨[]⟩).2.1

def kC9 : SplitKernelU :=
  match (compileExpression eC9 pC9 true ⟨[]⟩).1 with
  | .ok k => k
  | .error _ => .loopy ""

theorem compile_cached_witness :
    compileExpression eC9 pC9 true stC9 = (.ok kC9, stC9, false) :=
  (compile_cached eC9 pC9 true ⟨[]⟩ kC9 stC9 true (by decide)).1

/-- C10: for a mixed or multi-domain expression, both generators raise the
`NotImplementedError` before the builder/pipeline stage is reached, and
`compile_expression` propagates the error with the per-expression cache
unchanged — nothing is cached for the failed compilation. -/
theorem mixed_raises_uncached (e : SlateMeta) (params : List (String × String))
    (coffee : Bool) (cache : MetaCache)
    (hm : e.isMixed = true ∨ 1 < e.numDomains)
    (hmiss : lookupC cache.entries (sortItems params) = none) :
    slateKernelSplit e coffee
      = (.error (if e.isMixed then SlacError.mixedNotImplemented
                 else .multipleDomains), false)
    ∧ compileExpression e params coffee cache
      = (.error (if e.isMixed then SlacError.mixedNotImplemented
                 else .multipleDomains), cache, false) := by
  have hsplit : slateKernelSplit e coffee
      = (.error (if e.isMixed then SlacError.mixedNotImplemented
                 else .multipleDomains), false) := by
    by_cases hmix : e.isMixed = true
    · cases coffee <;>
        simp [slateKernelSplit, generateKernelM, generateLoopyKernelM, hmix]
    · have hdom : 1 < e.numDomains := by
        rcases hm with hm | hm
        · exact absurd hm hmix
        · exact hm
      cases coffee <;>
        simp [slateKernelSplit, generateKernelM, generateLoopyKernelM, hmix, hdom]
  refine ⟨hsplit, ?_⟩
  simp [compileExpression, hmiss, hsplit]

/-- A mixed expression record. -/
def eC10 : SlateMeta :=
  { expressionHash := "mixed00", isMixed := true, numDomains := 1, builder := bC1 }

theorem mixed_raises_uncached_witness :
    slateKernelSplit eC10 false = (.error .mixedNotImplemented, false)
    ∧ compileExpression eC10 pC9 false ⟨[]⟩
        = (.error .mixedNotImplemented, ⟨[]⟩, false) := by
  have h := mixed_raises_uncached eC10 pC9 false ⟨[]⟩ (Or.inl (by decide)) (by decide)
  exact ⟨h.1, h.2⟩
